import Mathlib

/-!
Verification of `dali/kernels/imgproc/jpeg/jpeg_distortion_gpu.cuh` (JPEG
compression-distortion GPU kernel).

Shallow embedding conventions:
* `float` arithmetic is modelled as exact rational arithmetic (`ℚ`);
  `roundf` / the rounding step of `ConvertSat` is round-half-away-from-zero.
* 8-bit pixel values are carried as `ℤ` constrained to `[0, 255]`.
* The CUDA grid/block scheduling is flattened into a sequential fold over the
  list of processed group positions; the barrier-separated shared-memory
  stages are modelled as value-level plane functions (each scratch cell's
  content between barriers is a pure function of the absolute coordinates).
* The 1-D 8-point DCT (in `dct_8x8_gpu.cuh`, outside the sources at hand) is
  treated, as the specification directs, as an external primitive: kernels
  are parameterized by a forward/inverse pair of functions on 8-vectors.
-/

namespace JpegDistortion

/-- Round half away from zero, the behavior of CUDA `roundf` and of the
rounding step modelled for `ConvertSat`. -/
def rnd (q : ℚ) : ℤ :=
  if 0 ≤ q then ⌊q + 1/2⌋ else -⌊-q + 1/2⌋

/-- Modelled from the spec: `ConvertSat<uint8_t>` from `dali/core/convert.h`
(not among the sources at hand) — "saturating conversion that clamps
out-of-range values to the representable pixel range", i.e. round to nearest
and clamp into `[0, 255]`. -/
def ConvertSatU8 (q : ℚ) : ℤ :=
  max 0 (min 255 (rnd q))

/-- `dali::clamp<int>` — clamp `v` into `[lo, hi]`. -/
def clampI (v lo hi : ℤ) : ℤ :=
  max lo (min v hi)

/-- `GetQualityFactorScale` (jpeg_distortion_gpu.cuh:31-40). -/
def GetQualityFactorScale (quality : ℤ) : ℚ :=
  let q := clampI quality 1 99
  if q < 50 then
    50 / (q : ℚ)
  else
    2 - (2 * q : ℤ) / (100 : ℚ)

/-- The Annex-K luma base table (jpeg_distortion_gpu.cuh:45-54). -/
def lumaBaseTable : Fin 8 → Fin 8 → ℤ :=
  ![![16, 11, 10, 16, 24, 40, 51, 61],
    ![12, 12, 14, 19, 26, 58, 60, 55],
    ![14, 13, 16, 24, 40, 57, 69, 56],
    ![14, 17, 22, 29, 51, 87, 80, 62],
    ![18, 22, 37, 56, 68, 109, 103, 77],
    ![24, 35, 55, 64, 81, 104, 113, 92],
    ![49, 64, 78, 87, 103, 121, 120, 101],
    ![72, 92, 95, 98, 112, 100, 103, 99]]

/-- The Annex-K chroma base table (jpeg_distortion_gpu.cuh:65-74). -/
def chromaBaseTable : Fin 8 → Fin 8 → ℤ :=
  ![![17, 18, 24, 47, 99, 99, 99, 99],
    ![18, 21, 26, 66, 99, 99, 99, 99],
    ![24, 26, 56, 99, 99, 99, 99, 99],
    ![47, 66, 99, 99, 99, 99, 99, 99],
    ![99, 99, 99, 99, 99, 99, 99, 99],
    ![99, 99, 99, 99, 99, 99, 99, 99],
    ![99, 99, 99, 99, 99, 99, 99, 99],
    ![99, 99, 99, 99, 99, 99, 99, 99]]

/-- `GetLumaQuantizationTable` (jpeg_distortion_gpu.cuh:44-62): each base
entry is multiplied by the quality scale and saturating-converted to uint8. -/
def GetLumaQuantizationTable (quality : ℤ) : Fin 8 → Fin 8 → ℤ :=
  fun i j => ConvertSatU8 (GetQualityFactorScale quality * lumaBaseTable i j)

/-- `GetChromaQuantizationTable` (jpeg_distortion_gpu.cuh:64-82). -/
def GetChromaQuantizationTable (quality : ℤ) : Fin 8 → Fin 8 → ℤ :=
  fun i j => ConvertSatU8 (GetQualityFactorScale quality * chromaBaseTable i j)

/-- A packed 3-channel pixel (`vec<3, uint8_t>` carrying the channel values
as integers). -/
structure RGB where
  r : ℤ
  g : ℤ
  b : ℤ
  deriving DecidableEq

/-- All three channels are in the 8-bit range. -/
def validRGB (p : RGB) : Prop :=
  0 ≤ p.r ∧ p.r ≤ 255 ∧ 0 ≤ p.g ∧ p.g ≤ 255 ∧ 0 ≤ p.b ∧ p.b ≤ 255

instance (p : RGB) : Decidable (validRGB p) := by
  unfold validRGB; infer_instance

/-- An image buffer: pixel content addressed by `(x, y)`.  The row/element
strides of `Surface2D` only affect the memory layout, which the embedding
abstracts away. -/
def Img : Type := ℤ × ℤ → RGB

/-- A coordinate lies inside the declared image dimensions —
`all_coords(pos >= 0) && all_coords(pos < surf.size)`. -/
def inBounds (p size : ℤ × ℤ) : Prop :=
  0 ≤ p.1 ∧ 0 ≤ p.2 ∧ p.1 < size.1 ∧ p.2 < size.2

instance (p size : ℤ × ℤ) : Decidable (inBounds p size) := by
  unfold inBounds; infer_instance

/-- Modelled from the spec: sampling through `make_sampler<DALI_INTERP_NN>`
with `BorderClamp()` (from `dali/kernels/imgproc/sampler.h`, not among the
sources at hand) — "out-of-bounds pixel accesses during sampling use
edge-clamping". -/
def sampleNN (in_ : Img) (size : ℤ × ℤ) (x y : ℤ) : RGB :=
  in_ (clampI x 0 (size.1 - 1), clampI y 0 (size.2 - 1))

/-- `rgb_to_y` (jpeg_distortion_gpu.cuh:93-96). -/
def rgb_to_y (p : RGB) : ℤ :=
  ConvertSatU8 (0.299 * p.r + 0.587 * p.g + 0.114 * p.b)

/-- `rgb_to_cb` (jpeg_distortion_gpu.cuh:98-101). -/
def rgb_to_cb (p : RGB) : ℤ :=
  ConvertSatU8 (-0.16873589 * p.r - 0.33126411 * p.g + 0.50000000 * p.b + 128.0)

/-- `rgb_to_cr` (jpeg_distortion_gpu.cuh:103-106). -/
def rgb_to_cr (p : RGB) : ℤ :=
  ConvertSatU8 (0.50000000 * p.r - 0.41868759 * p.g - 0.08131241 * p.b + 128.0)

/-- `avg4` (jpeg_distortion_gpu.cuh:113-116), elementwise
`ConvertSat<T>((a[i]+b[i]+c[i]+d[i]) * 0.25f)`. -/
def avg4 (a b c d : RGB) : RGB :=
  ⟨ConvertSatU8 ((a.r + b.r + c.r + d.r : ℤ) * 0.25),
   ConvertSatU8 ((a.g + b.g + c.g + d.g : ℤ) * 0.25),
   ConvertSatU8 ((a.b + b.b + c.b + d.b : ℤ) * 0.25)⟩

/-- `avg2` (jpeg_distortion_gpu.cuh:118-121). -/
def avg2 (a b : RGB) : RGB :=
  ⟨ConvertSatU8 ((a.r + b.r : ℤ) * 0.5),
   ConvertSatU8 ((a.g + b.g : ℤ) * 0.5),
   ConvertSatU8 ((a.b + b.b : ℤ) * 0.5)⟩

/-- `ycbcr_to_rgb` (jpeg_distortion_gpu.cuh:123-133). -/
def ycbcr_to_rgb (y cb cr : ℤ) : RGB :=
  ⟨ConvertSatU8 ((y : ℚ) + 1.402 * ((cr : ℚ) - 128.0)),
   ConvertSatU8 ((y : ℚ) - 0.34413629 * ((cb : ℚ) - 128.0)
                         - 0.71413629 * ((cr : ℚ) - 128.0)),
   ConvertSatU8 ((y : ℚ) + 1.772 * ((cb : ℚ) - 128.0))⟩

/-- The group width along x: `1 << horz_subsample`. -/
def subFac (flag : Bool) : ℤ := if flag then 2 else 1

/-- `YCbCrSubsampled<T, horz, vert>` (jpeg_distortion_gpu.cuh:136-141): up to
4 luma samples (`luma k` for `k < (1+horz)*(1+vert)`; other indices are
irrelevant and fixed to 0) plus one shared chroma pair. -/
structure YCbCrGroup where
  luma : ℕ → ℤ
  cb : ℤ
  cr : ℤ

/-- `rgb_to_ycbcr_subsampled` (jpeg_distortion_gpu.cuh:143-177). -/
def rgb_to_ycbcr_subsampled (hs vs : Bool) (in_ : Img) (size : ℤ × ℤ)
    (x y : ℤ) : YCbCrGroup :=
  let rgb0 := sampleNN in_ size x y
  let l0 := rgb_to_y rgb0
  if hs && vs then
    let rgb1 := sampleNN in_ size (x + 1) y
    let rgb2 := sampleNN in_ size x (y + 1)
    let rgb3 := sampleNN in_ size (x + 1) (y + 1)
    let avg_rgb := avg4 rgb0 rgb1 rgb2 rgb3
    ⟨fun k => if k = 0 then l0 else if k = 1 then rgb_to_y rgb1
              else if k = 2 then rgb_to_y rgb2 else if k = 3 then rgb_to_y rgb3
              else 0,
     rgb_to_cb avg_rgb, rgb_to_cr avg_rgb⟩
  else if hs then
    let rgb1 := sampleNN in_ size (x + 1) y
    let avg_rgb := avg2 rgb0 rgb1
    ⟨fun k => if k = 0 then l0 else if k = 1 then rgb_to_y rgb1 else 0,
     rgb_to_cb avg_rgb, rgb_to_cr avg_rgb⟩
  else if vs then
    let rgb1 := sampleNN in_ size x (y + 1)
    let avg_rgb := avg2 rgb0 rgb1
    ⟨fun k => if k = 0 then l0 else if k = 1 then rgb_to_y rgb1 else 0,
     rgb_to_cb avg_rgb, rgb_to_cr avg_rgb⟩
  else
    ⟨fun k => if k = 0 then l0 else 0, rgb_to_cb rgb0, rgb_to_cr rgb0⟩

/-- `write_vec` (jpeg_distortion_gpu.cuh:179-188): a single pixel store,
guarded by `all_coords(pos >= 0) && all_coords(pos < surf.size)`. -/
def write_vec (out : Img) (size : ℤ × ℤ) (pos : ℤ × ℤ) (v : RGB) : Img :=
  if inBounds pos size then
    fun p => if p = pos then v else out p
  else out

/-- `ycbcr_to_rgb_subsampled` (jpeg_distortion_gpu.cuh:190-206): broadcast
the shared chroma pair back to every luma position of the group. -/
def ycbcr_to_rgb_subsampled (hs vs : Bool) (out : Img) (size : ℤ × ℤ)
    (x y : ℤ) (g : YCbCrGroup) : Img :=
  let o0 := write_vec out size (x, y) (ycbcr_to_rgb (g.luma 0) g.cb g.cr)
  if hs && vs then
    let o1 := write_vec o0 size (x + 1, y) (ycbcr_to_rgb (g.luma 1) g.cb g.cr)
    let o2 := write_vec o1 size (x, y + 1) (ycbcr_to_rgb (g.luma 2) g.cb g.cr)
    write_vec o2 size (x + 1, y + 1) (ycbcr_to_rgb (g.luma 3) g.cb g.cr)
  else if hs then
    write_vec o0 size (x + 1, y) (ycbcr_to_rgb (g.luma 1) g.cb g.cr)
  else if vs then
    write_vec o0 size (x, y + 1) (ycbcr_to_rgb (g.luma 1) g.cb g.cr)
  else o0

/-- `SampleDesc` (jpeg_distortion_gpu.cuh:84-91), with the default
quantization tables built for quality 95. -/
structure SampleDesc where
  in_ : Img
  out : Img
  size : ℤ × ℤ
  strides : ℤ × ℤ
  luma_Q_table : Fin 8 → Fin 8 → ℤ := GetLumaQuantizationTable 95
  chroma_Q_table : Fin 8 → Fin 8 → ℤ := GetChromaQuantizationTable 95

/-- `quantize` (jpeg_distortion_gpu.cuh:242-246): `Q_coeff` floored to 1,
then `Q_coeff * roundf(value * (1/Q_coeff))` (`__frcp_rn` modelled as the
exact reciprocal). -/
def quantize (value Q_coeff : ℚ) : ℚ :=
  let Qc := if Q_coeff < 1 then 1 else Q_coeff
  Qc * (rnd (value * (1 / Qc)) : ℤ)

/-- An 8×8 scratch block, indexed `(row, column)` = `(y, x)`.  The 8×9
padding of `flat_blocks` only exists to avoid shared-memory bank conflicts
and carries no data. -/
def Blk : Type := Fin 8 → Fin 8 → ℚ

/-- The type of a 1-D 8-point transform acting on one slice. -/
def DctFn : Type := (Fin 8 → ℚ) → Fin 8 → ℚ

/-- Apply a 1-D transform along x to every row of a block — the
`col_stride = 1` slice pass of jpeg_distortion_gpu.cuh:346-348/379-381. -/
def dctRowPass (f : DctFn) (M : Blk) : Blk :=
  fun y x => f (M y) x

/-- Apply a 1-D transform along y to every column of a block — the
`row_stride = 9` slice pass of jpeg_distortion_gpu.cuh:351-353/374-376. -/
def dctColPass (f : DctFn) (M : Blk) : Blk :=
  fun y x => f (fun t => M t x) y

/-- Quantize every coefficient of a block against the matching table entry
(jpeg_distortion_gpu.cuh:356-371). -/
def quantBlock (Q : Fin 8 → Fin 8 → ℤ) (M : Blk) : Blk :=
  fun y x => quantize (M y x) ((Q y x : ℤ) : ℚ)

/-- The barrier-separated per-block stages of `JpegCompressionDistortion`
(jpeg_distortion_gpu.cuh:342-382): forward DCT (`col_stride` pass then
`row_stride` pass), optional quantization, inverse DCT (`row_stride` pass
then `col_stride` pass). -/
def processBlock (dF dI : DctFn) (qt : Bool) (Q : Fin 8 → Fin 8 → ℤ)
    (M : Blk) : Blk :=
  let fwd := dctColPass dF (dctRowPass dF M)
  let mid := if qt then quantBlock Q fwd else fwd
  dctRowPass dI (dctColPass dI mid)

/-- Reduce an integer coordinate modulo 8 into `Fin 8`. -/
def fin8 (n : ℤ) : Fin 8 :=
  ⟨(n % 8).toNat, by
    have h1 : 0 ≤ n % 8 := Int.emod_nonneg n (by norm_num)
    have h2 : n % 8 < 8 := Int.emod_lt_of_pos n (by norm_num)
    omega⟩

/-- The 8×8 block of a scratch plane whose top-left corner is
`(8*bx, 8*by_)`; entry `(y, x)` is the plane value at
`(8*bx + x, 8*by_ + y)`. -/
def blockOf (plane : ℤ → ℤ → ℚ) (bx by_ : ℤ) : Blk :=
  fun y x => plane (8 * bx + (x : ℕ)) (8 * by_ + (y : ℕ))

/-- The value a scratch plane holds at absolute coordinate `(X, Y)` after
the forward DCT / quantization / inverse DCT stages: its 8×8 block is
processed as a unit (the tile's aligned origin makes scratch blocks coincide
with the absolute 8-aligned grid). -/
def processedPlane (dF dI : DctFn) (qt : Bool) (Q : Fin 8 → Fin 8 → ℤ)
    (plane : ℤ → ℤ → ℚ) (X Y : ℤ) : ℚ :=
  processBlock dF dI qt Q (blockOf plane (X / 8) (Y / 8)) (fin8 Y) (fin8 X)

/-- The pixel group gathered by the thread at chroma position `(px, py)`:
`rgb_to_ycbcr_subsampled` at offset `(px << horz, py << vert)`
(jpeg_distortion_gpu.cuh:323-329). -/
def gatherGroup (hs vs : Bool) (in_ : Img) (size : ℤ × ℤ)
    (px py : ℤ) : YCbCrGroup :=
  rgb_to_ycbcr_subsampled hs vs in_ size (px * subFac hs) (py * subFac vs)

/-- The luma scratch plane at absolute luma coordinate `(X, Y)`: the thread
anchored at `(X >> horz, Y >> vert)` stores `luma[i*(1+horz)+j] - 128` into
cell `(luma_y + i, luma_x + j)` (jpeg_distortion_gpu.cuh:330-337). -/
def lumaScratch (hs vs : Bool) (in_ : Img) (size : ℤ × ℤ) (X Y : ℤ) : ℚ :=
  (((gatherGroup hs vs in_ size (X / subFac hs) (Y / subFac vs)).luma
      ((Y % subFac vs) * subFac hs + (X % subFac hs)).toNat : ℤ) : ℚ) - 128

/-- The Cb scratch plane at chroma coordinate `(px, py)`
(jpeg_distortion_gpu.cuh:331). -/
def cbScratch (hs vs : Bool) (in_ : Img) (size : ℤ × ℤ) (px py : ℤ) : ℚ :=
  (((gatherGroup hs vs in_ size px py).cb : ℤ) : ℚ) - 128

/-- The Cr scratch plane at chroma coordinate `(px, py)`
(jpeg_distortion_gpu.cuh:332). -/
def crScratch (hs vs : Bool) (in_ : Img) (size : ℤ × ℤ) (px py : ℤ) : ℚ :=
  (((gatherGroup hs vs in_ size px py).cr : ℤ) : ℚ) - 128

/-- `kernels::BlockDesc<2>` as consumed by one kernel invocation: the
start/end coordinates of the tile (the `sample_idx` indirection into the
samples array is resolved outside the per-sample embedding). -/
structure BlockDesc where
  start : ℤ × ℤ
  endPos : ℤ × ℤ

/-- `block.start.x & -align` for `align = 8` (two's complement), i.e. align
down to a multiple of 8 (jpeg_distortion_gpu.cuh:261-262). -/
def alignDown8 (x : ℤ) : ℤ := 8 * (x / 8)

/-- `align_up(x, 8)` (jpeg_distortion_gpu.cuh:263-264). -/
def alignUp8 (x : ℤ) : ℤ := 8 * ((x + 7) / 8)

/-- `num_pages` (jpeg_distortion_gpu.cuh:269). -/
def numPages (hs vs : Bool) : ℕ := if hs then (if vs then 2 else 3) else 4

/-- Number of chroma columns processed by the tile: the `blk_pos_x` loop of
jpeg_distortion_gpu.cuh:321 steps by `blockDim.x = 32` while below the
aligned end, and the 32 threads of each step cover
`[blk_pos_x, blk_pos_x + 32)`, so the covered range rounds the aligned
range up to whole 32-steps. -/
def tileNX (blk : BlockDesc) : ℕ :=
  (32 * ((alignUp8 blk.endPos.1 - alignDown8 blk.start.1 + 31) / 32)).toNat

/-- Number of chroma rows processed by the tile: the `blk_pos_y` loop of
jpeg_distortion_gpu.cuh:319-320 steps by
`ystep = num_pages * vert_chroma_blocks * 8 = num_pages * 16`, and the 16
thread rows times `num_pages` pages cover `[blk_pos_y, blk_pos_y + ystep)`
per step. -/
def tileNY (hs vs : Bool) (blk : BlockDesc) : ℕ :=
  ((numPages hs vs : ℤ) * 16 *
    ((alignUp8 blk.endPos.2 - alignDown8 blk.start.2 + (numPages hs vs : ℤ) * 16 - 1)
      / ((numPages hs vs : ℤ) * 16))).toNat

/-- The chroma-space positions processed by the tile: the
`blk_pos_y`/`blk_pos_x`/`page`/`threadIdx` loops of
jpeg_distortion_gpu.cuh:319-324 flattened into one list — a contiguous
rectangle starting at the aligned-down start. -/
def posList (hs vs : Bool) (blk : BlockDesc) : List (ℤ × ℤ) :=
  (List.range (tileNY hs vs blk)).flatMap
    (fun iy : ℕ => (List.range (tileNX blk)).map
      (fun ix : ℕ => (alignDown8 blk.start.1 + (ix : ℤ),
                      alignDown8 blk.start.2 + (iy : ℤ))))

/-- The saturated +128-shifted luma value the kernel writes back for the
pixel at luma coordinate `X Y` (jpeg_distortion_gpu.cuh:400-405). -/
def lumaOutVal (hs vs qt : Bool) (dF dI : DctFn) (s : SampleDesc)
    (X Y : ℤ) : ℤ :=
  ConvertSatU8 (processedPlane dF dI qt s.luma_Q_table
    (lumaScratch hs vs s.in_ s.size) X Y + 128)

/-- The saturated +128-shifted Cb value the kernel writes back for the
group at chroma position `pos` (jpeg_distortion_gpu.cuh:398). -/
def cbOutVal (hs vs qt : Bool) (dF dI : DctFn) (s : SampleDesc)
    (pos : ℤ × ℤ) : ℤ :=
  ConvertSatU8 (processedPlane dF dI qt s.chroma_Q_table
    (cbScratch hs vs s.in_ s.size) pos.1 pos.2 + 128)

/-- The saturated +128-shifted Cr value the kernel writes back for the
group at chroma position `pos` (jpeg_distortion_gpu.cuh:399). -/
def crOutVal (hs vs qt : Bool) (dF dI : DctFn) (s : SampleDesc)
    (pos : ℤ × ℤ) : ℤ :=
  ConvertSatU8 (processedPlane dF dI qt s.chroma_Q_table
    (crScratch hs vs s.in_ s.size) pos.1 pos.2 + 128)

/-- The work of one thread/page slot for the group anchored at chroma
position `pos`: skip when the group's offset is past the image
(jpeg_distortion_gpu.cuh:384-394), otherwise shift the processed scratch
values back by +128, saturate, and write the group back through
`ycbcr_to_rgb_subsampled` (jpeg_distortion_gpu.cuh:396-406). -/
def kernelWriteStep (hs vs qt : Bool) (dF dI : DctFn) (s : SampleDesc)
    (out : Img) (pos : ℤ × ℤ) : Img :=
  let x := pos.1 * subFac hs
  let y := pos.2 * subFac vs
  if s.size.1 ≤ x ∨ s.size.2 ≤ y then out
  else
    let g : YCbCrGroup :=
      { luma := fun k => lumaOutVal hs vs qt dF dI s
          (x + (k : ℤ) % subFac hs) (y + (k : ℤ) / subFac hs),
        cb := cbOutVal hs vs qt dF dI s pos,
        cr := crOutVal hs vs qt dF dI s pos }
    ycbcr_to_rgb_subsampled hs vs out s.size x y g

/-- `JpegCompressionDistortion` (jpeg_distortion_gpu.cuh:252-410): process
every group position of the tile, starting from the sample's output buffer
content. -/
def JpegCompressionDistortion (hs vs qt : Bool) (dF dI : DctFn)
    (s : SampleDesc) (blk : BlockDesc) : Img :=
  (posList hs vs blk).foldl (kernelWriteStep hs vs qt dF dI s) s.out

/-- The quality→scale rule exactly as the specification words it
("if quality&lt;50, s = 50/quality; else s = 2 − 2·quality/100"), for an
already-clamped quality. -/
def qualityScaleSpec (q : ℤ) : ℚ :=
  if q < 50 then 50 / (q : ℚ) else 2 - 2 * (q : ℚ) / 100

/-- The chroma-space position of the group a pixel belongs to. -/
def anchorOf (hs vs : Bool) (p : ℤ × ℤ) : ℤ × ℤ :=
  (p.1 / subFac hs, p.2 / subFac vs)

/-- Every pixel of the image holds 8-bit channel values. -/
def validImg (in_ : Img) : Prop :=
  ∀ p, validRGB (in_ p)

/-- The coordinates `rgb_to_ycbcr_subsampled` samples for a group anchored
at `(x, y)`, as the specification words it: 1, 2 or 4 neighbors according
to the subsampling flags. -/
def sampledCoordsSpec (hs vs : Bool) (x y : ℤ) : List (ℤ × ℤ) :=
  if hs && vs then [(x, y), (x + 1, y), (x, y + 1), (x + 1, y + 1)]
  else if hs then [(x, y), (x + 1, y)]
  else if vs then [(x, y), (x, y + 1)]
  else [(x, y)]

/-- The pixels read for a group: the sampled coordinates fetched with the
border-clamping sampler. -/
def sampledPixels (hs vs : Bool) (in_ : Img) (size : ℤ × ℤ)
    (x y : ℤ) : List RGB :=
  (sampledCoordsSpec hs vs x y).map (fun c => sampleNN in_ size c.1 c.2)

/-- The arithmetic mean of a list of pixels, rounded and saturated
per channel — the specification's description of the chroma source. -/
def meanRGB (l : List RGB) : RGB :=
  ⟨ConvertSatU8 (((l.map RGB.r).sum : ℤ) / (l.length : ℚ)),
   ConvertSatU8 (((l.map RGB.g).sum : ℤ) / (l.length : ℚ)),
   ConvertSatU8 (((l.map RGB.b).sum : ℤ) / (l.length : ℚ))⟩

/-- A constant image (used to instantiate concrete scenarios). -/
def constImg (c : RGB) : Img := fun _ => c

/-! ### Basic facts about the rounding and saturation primitives -/

theorem rnd_intCast (n : ℤ) : rnd (n : ℚ) = n := by
  unfold rnd
  rcases le_or_lt 0 (n : ℚ) with h | h
  · rw [if_pos h, add_comm, Int.floor_add_int]
    norm_num
  · rw [if_neg (not_le.mpr h)]
    have hrw : -(n : ℚ) + 1/2 = 1/2 + ((-n : ℤ) : ℚ) := by push_cast; ring
    rw [hrw, Int.floor_add_int]
    norm_num

theorem abs_rnd_sub_le (x : ℚ) : |(rnd x : ℚ) - x| ≤ 1/2 := by
  unfold rnd
  rcases le_or_lt 0 x with h | h
  · rw [if_pos h]
    have h1 : (⌊x + 1/2⌋ : ℚ) ≤ x + 1/2 := Int.floor_le _
    have h2 : x + 1/2 < ⌊x + 1/2⌋ + 1 := Int.lt_floor_add_one _
    rw [abs_le]
    constructor <;> linarith
  · rw [if_neg (not_le.mpr h)]
    have h1 : (⌊-x + 1/2⌋ : ℚ) ≤ -x + 1/2 := Int.floor_le _
    have h2 : -x + 1/2 < ⌊-x + 1/2⌋ + 1 := Int.lt_floor_add_one _
    rw [abs_le]
    constructor <;> push_cast <;> linarith

theorem rnd_mono {x y : ℚ} (h : x ≤ y) : rnd x ≤ rnd y := by
  unfold rnd
  rcases le_or_lt 0 x with hx | hx
  · rw [if_pos hx, if_pos (le_trans hx h)]
    exact Int.floor_le_floor (by linarith)
  · rw [if_neg (not_le.mpr hx)]
    rcases le_or_lt 0 y with hy | hy
    · rw [if_pos hy]
      have h1 : 0 ≤ ⌊y + 1/2⌋ := Int.floor_nonneg.mpr (by linarith)
      have h2 : 0 ≤ ⌊-x + 1/2⌋ := Int.floor_nonneg.mpr (by linarith)
      omega
    · rw [if_neg (not_le.mpr hy)]
      have h3 : ⌊-y + 1/2⌋ ≤ ⌊-x + 1/2⌋ := Int.floor_le_floor (by linarith)
      omega

theorem one_le_rnd {x : ℚ} (h : 1/2 ≤ x) : 1 ≤ rnd x := by
  unfold rnd
  rw [if_pos (by linarith)]
  exact Int.le_floor.mpr (by push_cast; linarith)

theorem ConvertSatU8_nonneg (x : ℚ) : 0 ≤ ConvertSatU8 x :=
  le_max_left _ _

theorem ConvertSatU8_le_255 (x : ℚ) : ConvertSatU8 x ≤ 255 :=
  max_le (by norm_num) (min_le_left _ _)

theorem ConvertSatU8_intCast {n : ℤ} (h0 : 0 ≤ n) (h255 : n ≤ 255) :
    ConvertSatU8 (n : ℚ) = n := by
  unfold ConvertSatU8
  rw [rnd_intCast, min_eq_right h255, max_eq_right h0]

theorem ConvertSatU8_mono {x y : ℚ} (h : x ≤ y) :
    ConvertSatU8 x ≤ ConvertSatU8 y :=
  max_le_max le_rfl (min_le_min le_rfl (rnd_mono h))

theorem one_le_ConvertSatU8 {x : ℚ} (h : 1/2 ≤ x) : 1 ≤ ConvertSatU8 x :=
  le_max_of_le_right (le_min (by norm_num) (one_le_rnd h))

theorem abs_ConvertSatU8_sub_le {x : ℚ} (h1 : -(1/2) ≤ x)
    (h2 : x ≤ 255 + 1/2) : |(ConvertSatU8 x : ℚ) - x| ≤ 1/2 := by
  have hr := abs_rnd_sub_le x
  rw [abs_le] at hr
  unfold ConvertSatU8
  rcases le_total (rnd x) 0 with hk | hk
  · have hmin : min 255 (rnd x) = rnd x := min_eq_right (by omega)
    have hmax : max 0 (rnd x) = 0 := max_eq_left hk
    rw [hmin, hmax]
    have hkx : (rnd x : ℚ) ≤ 0 := by exact_mod_cast hk
    rw [abs_le]
    constructor <;> push_cast <;> linarith
  · rcases le_total 255 (rnd x) with hk2 | hk2
    · have hmin : min 255 (rnd x) = 255 := min_eq_left hk2
      rw [hmin, max_eq_right (by norm_num : (0:ℤ) ≤ 255)]
      have hkx : (255 : ℚ) ≤ (rnd x : ℚ) := by exact_mod_cast hk2
      rw [abs_le]
      constructor <;> linarith
    · rw [min_eq_right hk2, max_eq_right hk]
      rw [abs_le]
      constructor <;> linarith

theorem ConvertSatU8_near_int {x : ℚ} {t : ℤ} (h0 : 0 ≤ t) (h255 : t ≤ 255)
    (hx : |x - t| < 3/2) : |ConvertSatU8 x - t| ≤ 1 := by
  have hr := abs_rnd_sub_le x
  have htri : |(rnd x : ℚ) - t| ≤ |(rnd x : ℚ) - x| + |x - t| :=
    abs_sub_le _ x _
  have hlt : |(rnd x : ℚ) - t| < 2 := by linarith
  have hkt : |rnd x - t| ≤ 1 := by
    have hcast : |((rnd x - t : ℤ) : ℚ)| < 2 := by push_cast; exact hlt
    rw [← Int.cast_abs] at hcast
    have : |rnd x - t| < 2 := by exact_mod_cast hcast
    omega
  unfold ConvertSatU8
  rw [abs_le] at hkt ⊢
  rcases le_total (rnd x) 0 with hk | hk
  · rw [min_eq_right (by omega), max_eq_left hk]
    omega
  · rcases le_total 255 (rnd x) with hk2 | hk2
    · rw [min_eq_left hk2, max_eq_right (by norm_num : (0:ℤ) ≤ 255)]
      omega
    · rw [min_eq_right hk2, max_eq_right hk]
      omega

/-! ### Quantization-table builder facts -/

theorem clampI_eq_self {v lo hi : ℤ} (h1 : lo ≤ v) (h2 : v ≤ hi) :
    clampI v lo hi = v := by
  unfold clampI
  rw [min_eq_left h2, max_eq_right h1]

theorem GetQualityFactorScale_eq_spec (q : ℤ) :
    GetQualityFactorScale q = qualityScaleSpec (clampI q 1 99) := by
  unfold GetQualityFactorScale qualityScaleSpec
  rcases lt_or_le (clampI q 1 99) 50 with h | h
  · rw [if_pos h, if_pos h]
  · rw [if_neg (not_lt.mpr h), if_neg (not_lt.mpr h)]
    push_cast
    ring

theorem lumaBaseTable_bounds : ∀ i j, 10 ≤ lumaBaseTable i j ∧ lumaBaseTable i j ≤ 121 := by
  decide

theorem chromaBaseTable_bounds : ∀ i j, 17 ≤ chromaBaseTable i j ∧ chromaBaseTable i j ≤ 99 := by
  decide

/-- Claim C1: for every integer quality, the luma and chroma quantization
tables are the Annex-K base tables with each entry multiplied by the scale
`s` of the clamped quality (`s = 50/q` for `q < 50`, else `2 − 2q/100`) and
rounded/saturated into `[0, 255]`; in particular quality 0 yields the same
luma table as quality 1 and quality 150 the same as quality 99. -/
theorem C1_table_builder :
    (∀ (q : ℤ) (i j : Fin 8),
        GetLumaQuantizationTable q i j
          = ConvertSatU8 (qualityScaleSpec (clampI q 1 99) * lumaBaseTable i j)) ∧
    (∀ (q : ℤ) (i j : Fin 8),
        GetChromaQuantizationTable q i j
          = ConvertSatU8 (qualityScaleSpec (clampI q 1 99) * chromaBaseTable i j)) ∧
    GetLumaQuantizationTable 0 = GetLumaQuantizationTable 1 ∧
    GetLumaQuantizationTable 150 = GetLumaQuantizationTable 99 := by
  have hs01 : GetQualityFactorScale 0 = GetQualityFactorScale 1 := by
    norm_num [GetQualityFactorScale, clampI]
  have hs99 : GetQualityFactorScale 150 = GetQualityFactorScale 99 := by
    norm_num [GetQualityFactorScale, clampI]
  refine ⟨fun q i j => ?_, fun q i j => ?_, ?_, ?_⟩
  · rw [GetLumaQuantizationTable, GetQualityFactorScale_eq_spec]
  · rw [GetChromaQuantizationTable, GetQualityFactorScale_eq_spec]
  · funext i j
    rw [GetLumaQuantizationTable, GetLumaQuantizationTable, hs01]
  · funext i j
    rw [GetLumaQuantizationTable, GetLumaQuantizationTable, hs99]

/-- Claim C2: `quantize` floors the table entry to 1 and snaps the value to
the resulting grid (`Q' * round(v / Q')` with `Q' = Q` when `Q ≥ 1`, else
`1`); in the kernel's quantization stage every block coefficient at `(row,
col)` is quantized against the table entry at that same `(row, col)`. -/
theorem C2_quantize :
    (∀ v Q : ℚ, quantize v Q
        = (if 1 ≤ Q then Q else 1) * (rnd (v / (if 1 ≤ Q then Q else 1)) : ℤ)) ∧
    (∀ (Q : Fin 8 → Fin 8 → ℤ) (M : Blk) (y x : Fin 8),
        quantBlock Q M y x = quantize (M y x) ((Q y x : ℤ) : ℚ)) ∧
    (∀ (dF dI : DctFn) (Q : Fin 8 → Fin 8 → ℤ) (M : Blk),
        processBlock dF dI true Q M
          = dctRowPass dI (dctColPass dI
              (quantBlock Q (dctColPass dF (dctRowPass dF M))))) := by
  refine ⟨fun v Q => ?_, fun Q M y x => rfl, fun dF dI Q M => rfl⟩
  rcases le_or_lt 1 Q with h | h
  · simp only [quantize, if_neg (not_lt.mpr h), if_pos h, mul_one_div]
  · simp only [quantize, if_pos h, if_neg (not_le.mpr h)]
    norm_num

theorem GetQualityFactorScale_antitone {q1 q2 : ℤ} (h1 : 1 ≤ q1)
    (h12 : q1 ≤ q2) (h99 : q2 ≤ 99) :
    GetQualityFactorScale q2 ≤ GetQualityFactorScale q1 := by
  unfold GetQualityFactorScale
  rw [clampI_eq_self h1 (by omega), clampI_eq_self (by omega) h99]
  have hq1 : (1 : ℚ) ≤ (q1 : ℚ) := by exact_mod_cast h1
  have hq12 : (q1 : ℚ) ≤ (q2 : ℚ) := by exact_mod_cast h12
  have hq99 : (q2 : ℚ) ≤ 99 := by exact_mod_cast h99
  rcases lt_or_le q1 50 with ha | ha <;> rcases lt_or_le q2 50 with hb | hb
  · rw [if_pos ha, if_pos hb]
    gcongr
  · rw [if_pos ha, if_neg (not_lt.mpr hb)]
    have hb' : (50 : ℚ) ≤ (q2 : ℚ) := by exact_mod_cast hb
    have ha' : (q1 : ℚ) ≤ 49 := by exact_mod_cast (by omega : q1 ≤ 49)
    have hone : (1 : ℚ) ≤ 50 / (q1 : ℚ) := by
      rw [le_div_iff₀ (by linarith)]
      linarith
    push_cast
    linarith
  · omega
  · rw [if_neg (not_lt.mpr ha), if_neg (not_lt.mpr hb)]
    push_cast
    linarith

/-- Claim C7: lower quality gives element-wise larger quantization steps:
for `1 ≤ q1 < q2 ≤ 99` every entry of the quality-`q1` tables dominates the
corresponding entry of the quality-`q2` tables, for luma and chroma. -/
theorem C7_monotonicity {q1 q2 : ℤ} (h1 : 1 ≤ q1) (h12 : q1 < q2)
    (h99 : q2 ≤ 99) :
    ∀ i j, GetLumaQuantizationTable q2 i j ≤ GetLumaQuantizationTable q1 i j ∧
      GetChromaQuantizationTable q2 i j ≤ GetChromaQuantizationTable q1 i j := by
  intro i j
  have hscale := GetQualityFactorScale_antitone h1 (le_of_lt h12) h99
  constructor
  · exact ConvertSatU8_mono (mul_le_mul_of_nonneg_right hscale
      (by exact_mod_cast (lumaBaseTable_bounds i j).1.trans' (by norm_num)))
  · exact ConvertSatU8_mono (mul_le_mul_of_nonneg_right hscale
      (by exact_mod_cast (chromaBaseTable_bounds i j).1.trans' (by norm_num)))

/-- Claim C7 witness at `q1 = 10 < q2 = 20`. -/
theorem C7_monotonicity_witness :
    ((1 : ℤ) ≤ 10 ∧ (10 : ℤ) < 20 ∧ (20 : ℤ) ≤ 99) ∧
    (∀ i j, GetLumaQuantizationTable 20 i j ≤ GetLumaQuantizationTable 10 i j ∧
      GetChromaQuantizationTable 20 i j ≤ GetChromaQuantizationTable 10 i j) :=
  ⟨⟨by norm_num, by norm_num, by norm_num⟩,
   C7_monotonicity (by norm_num) (by norm_num) (by norm_num)⟩

theorem GetQualityFactorScale_lb {q : ℤ} (h1 : 1 ≤ q) (h97 : q ≤ 97) :
    1/20 ≤ GetQualityFactorScale q := by
  unfold GetQualityFactorScale
  rw [clampI_eq_self h1 (by omega)]
  have hq1 : (1 : ℚ) ≤ (q : ℚ) := by exact_mod_cast h1
  have hq97 : (q : ℚ) ≤ 97 := by exact_mod_cast h97
  rcases lt_or_le q 50 with ha | ha
  · rw [if_pos ha]
    rw [le_div_iff₀ (by linarith)]
    linarith
  · rw [if_neg (not_lt.mpr ha)]
    push_cast
    linarith

/-- Claim C8 counterexample: at quality 99 (inside `[1, 99]`) the stored
luma table entry at position `(0, 2)` is 0, not in `[1, 255]`. -/
theorem C8_entry_zero_counterexample :
    GetLumaQuantizationTable 99 0 2 = 0 ∧
    ¬ (1 ≤ GetLumaQuantizationTable 99 0 2) := by
  constructor
  · norm_num [GetLumaQuantizationTable, GetQualityFactorScale, clampI,
      ConvertSatU8, rnd, lumaBaseTable]
  · norm_num [GetLumaQuantizationTable, GetQualityFactorScale, clampI,
      ConvertSatU8, rnd, lumaBaseTable]

/-- Claim C8 (amended): for every quality in `[1, 99]` all stored luma and
chroma table entries lie in `[0, 255]`, and for qualities up to 97 they lie
in `[1, 255]`; at qualities 98 and 99 some entries round to 0 (they are
only treated as 1 downstream, by `quantize`). -/
theorem C8_table_entry_range {q : ℤ} (h1 : 1 ≤ q) (_h99 : q ≤ 99) :
    ∀ i j,
      (0 ≤ GetLumaQuantizationTable q i j ∧ GetLumaQuantizationTable q i j ≤ 255 ∧
       0 ≤ GetChromaQuantizationTable q i j ∧ GetChromaQuantizationTable q i j ≤ 255) ∧
      (q ≤ 97 →
       1 ≤ GetLumaQuantizationTable q i j ∧ 1 ≤ GetChromaQuantizationTable q i j) := by
  intro i j
  refine ⟨⟨ConvertSatU8_nonneg _, ConvertSatU8_le_255 _,
           ConvertSatU8_nonneg _, ConvertSatU8_le_255 _⟩, fun h97 => ?_⟩
  have hscale := GetQualityFactorScale_lb h1 h97
  have hbl : (10 : ℚ) ≤ (lumaBaseTable i j : ℚ) := by
    exact_mod_cast (lumaBaseTable_bounds i j).1
  have hbc : (10 : ℚ) ≤ (chromaBaseTable i j : ℚ) := by
    have := (chromaBaseTable_bounds i j).1
    exact_mod_cast (by omega : (10 : ℤ) ≤ chromaBaseTable i j)
  constructor
  · refine one_le_ConvertSatU8 ?_
    calc (1/2 : ℚ) = (1/20) * 10 := by norm_num
    _ ≤ GetQualityFactorScale q * (lumaBaseTable i j : ℚ) :=
        mul_le_mul hscale hbl (by norm_num) (by linarith)
  · refine one_le_ConvertSatU8 ?_
    calc (1/2 : ℚ) = (1/20) * 10 := by norm_num
    _ ≤ GetQualityFactorScale q * (chromaBaseTable i j : ℚ) :=
        mul_le_mul hscale hbc (by norm_num) (by linarith)

/-- Claim C8 witness at quality 95. -/
theorem C8_table_entry_range_witness :
    ((1 : ℤ) ≤ 95 ∧ (95 : ℤ) ≤ 99) ∧
    (∀ i j,
      (0 ≤ GetLumaQuantizationTable 95 i j ∧ GetLumaQuantizationTable 95 i j ≤ 255 ∧
       0 ≤ GetChromaQuantizationTable 95 i j ∧ GetChromaQuantizationTable 95 i j ≤ 255) ∧
      ((95 : ℤ) ≤ 97 →
       1 ≤ GetLumaQuantizationTable 95 i j ∧ 1 ≤ GetChromaQuantizationTable 95 i j)) :=
  ⟨⟨by norm_num, by norm_num⟩, C8_table_entry_range (by norm_num) (by norm_num)⟩

/-! ### Write-phase lemmas -/

theorem write_vec_oob (out : Img) (size pos : ℤ × ℤ) (v : RGB) {p : ℤ × ℤ}
    (h : ¬ inBounds p size) : write_vec out size pos v p = out p := by
  unfold write_vec
  split
  · rename_i hpos
    by_cases hpp : p = pos
    · subst hpp
      exact absurd hpos h
    · simp [hpp]
  · rfl

theorem write_vec_ne (out : Img) (size pos : ℤ × ℤ) (v : RGB) {p : ℤ × ℤ}
    (h : p ≠ pos) : write_vec out size pos v p = out p := by
  unfold write_vec
  split
  · simp [h]
  · rfl

theorem write_vec_self (out : Img) (size : ℤ × ℤ) (v : RGB) {pos : ℤ × ℤ}
    (h : inBounds pos size) : write_vec out size pos v pos = v := by
  unfold write_vec
  rw [if_pos h]
  simp

theorem subFac_pos (b : Bool) : 0 < subFac b := by
  cases b <;> norm_num [subFac]

theorem sub_write_oob (hs vs : Bool) (out : Img) (size : ℤ × ℤ) (x y : ℤ)
    (g : YCbCrGroup) {p : ℤ × ℤ} (h : ¬ inBounds p size) :
    ycbcr_to_rgb_subsampled hs vs out size x y g p = out p := by
  cases hs <;> cases vs <;>
    simp only [ycbcr_to_rgb_subsampled, Bool.and_self, Bool.and_true,
      Bool.and_false, Bool.true_and, Bool.false_and, Bool.false_eq_true,
      if_true, if_false]
  · exact write_vec_oob _ _ _ _ h
  · rw [write_vec_oob _ _ _ _ h, write_vec_oob _ _ _ _ h]
  · rw [write_vec_oob _ _ _ _ h, write_vec_oob _ _ _ _ h]
  · rw [write_vec_oob _ _ _ _ h, write_vec_oob _ _ _ _ h,
      write_vec_oob _ _ _ _ h, write_vec_oob _ _ _ _ h]

theorem sub_write_other (hs vs : Bool) (out : Img) (size : ℤ × ℤ) (x y : ℤ)
    (g : YCbCrGroup) {p : ℤ × ℤ}
    (h : ∀ dx dy : ℤ, 0 ≤ dx → dx < subFac hs → 0 ≤ dy → dy < subFac vs →
      p ≠ (x + dx, y + dy)) :
    ycbcr_to_rgb_subsampled hs vs out size x y g p = out p := by
  have h00 : p ≠ (x, y) := by
    simpa using h 0 0 le_rfl (subFac_pos hs) le_rfl (subFac_pos vs)
  cases hs <;> cases vs <;>
    simp only [ycbcr_to_rgb_subsampled, Bool.and_self, Bool.and_true,
      Bool.and_false, Bool.true_and, Bool.false_and, Bool.false_eq_true,
      if_true, if_false]
  · exact write_vec_ne _ _ _ _ h00
  · have h01 : p ≠ (x, y + 1) := by
      simpa using h 0 1 le_rfl (subFac_pos false) (by norm_num)
        (by norm_num [subFac])
    rw [write_vec_ne _ _ _ _ h01, write_vec_ne _ _ _ _ h00]
  · have h10 : p ≠ (x + 1, y) := by
      simpa using h 1 0 (by norm_num) (by norm_num [subFac]) le_rfl
        (subFac_pos false)
    rw [write_vec_ne _ _ _ _ h10, write_vec_ne _ _ _ _ h00]
  · have h10 : p ≠ (x + 1, y) := by
      simpa using h 1 0 (by norm_num) (by norm_num [subFac]) le_rfl
        (subFac_pos true)
    have h01 : p ≠ (x, y + 1) := by
      simpa using h 0 1 le_rfl (subFac_pos true) (by norm_num)
        (by norm_num [subFac])
    have h11 : p ≠ (x + 1, y + 1) := h 1 1 (by norm_num) (by norm_num [subFac])
      (by norm_num) (by norm_num [subFac])
    rw [write_vec_ne _ _ _ _ h11, write_vec_ne _ _ _ _ h01,
      write_vec_ne _ _ _ _ h10, write_vec_ne _ _ _ _ h00]

theorem mul_ediv_le (a f : ℤ) (hf : 0 < f) : f * (a / f) ≤ a := by
  have h := Int.ediv_add_emod a f
  have h2 := Int.emod_nonneg a (ne_of_gt hf)
  linarith

theorem mul_add_ediv {a d f : ℤ} (hf : 0 < f) (h0 : 0 ≤ d) (hd : d < f) :
    (a * f + d) / f = a := by
  rw [add_comm, Int.add_mul_ediv_right _ _ (ne_of_gt hf),
    Int.ediv_eq_zero_of_lt h0 hd]
  ring

theorem kernelWriteStep_oob (hs vs qt : Bool) (dF dI : DctFn) (s : SampleDesc)
    (out : Img) (pos : ℤ × ℤ) {p : ℤ × ℤ} (h : ¬ inBounds p s.size) :
    kernelWriteStep hs vs qt dF dI s out pos p = out p := by
  by_cases hc : s.size.1 ≤ pos.1 * subFac hs ∨ s.size.2 ≤ pos.2 * subFac vs
  · simp only [kernelWriteStep, if_pos hc]
  · simp only [kernelWriteStep, if_neg hc]
    exact sub_write_oob _ _ _ _ _ _ _ h

theorem kernelWriteStep_other (hs vs qt : Bool) (dF dI : DctFn)
    (s : SampleDesc) (out : Img) (pos : ℤ × ℤ) {p : ℤ × ℤ}
    (h : anchorOf hs vs p ≠ pos) :
    kernelWriteStep hs vs qt dF dI s out pos p = out p := by
  by_cases hc : s.size.1 ≤ pos.1 * subFac hs ∨ s.size.2 ≤ pos.2 * subFac vs
  · simp only [kernelWriteStep, if_pos hc]
  · simp only [kernelWriteStep, if_neg hc]
    apply sub_write_other
    intro dx dy h0x hx h0y hy heq
    apply h
    rw [heq]
    unfold anchorOf
    simp only
    rw [mul_add_ediv (subFac_pos hs) h0x hx,
      mul_add_ediv (subFac_pos vs) h0y hy]

theorem sub_write_at (hs vs : Bool) (out : Img) (size : ℤ × ℤ)
    (x y dx dy : ℤ) (g : YCbCrGroup) (h0x : 0 ≤ dx) (hx : dx < subFac hs)
    (h0y : 0 ≤ dy) (hy : dy < subFac vs)
    (hin : inBounds (x + dx, y + dy) size) :
    ycbcr_to_rgb_subsampled hs vs out size x y g (x + dx, y + dy)
      = ycbcr_to_rgb (g.luma (dy * subFac hs + dx).toNat) g.cb g.cr := by
  cases hs <;> cases vs <;>
    simp only [subFac, if_true, if_false, Bool.false_eq_true] at hx hy ⊢ <;>
    simp only [ycbcr_to_rgb_subsampled, Bool.and_self, Bool.and_true,
      Bool.and_false, Bool.true_and, Bool.false_and, Bool.false_eq_true,
      if_true, if_false]
  · obtain rfl : dx = 0 := by omega
    obtain rfl : dy = 0 := by omega
    simp only [add_zero] at hin ⊢
    rw [write_vec_self _ _ _ hin]
    norm_num
  · obtain rfl : dx = 0 := by omega
    rcases (by omega : dy = 0 ∨ dy = 1) with rfl | rfl
    · simp only [add_zero] at hin ⊢
      rw [write_vec_ne _ _ _ _ (show ((x : ℤ), y) ≠ (x, y + 1) by
        intro hq; simp only [Prod.mk.injEq] at hq; omega)]
      rw [write_vec_self _ _ _ hin]
      norm_num
    · simp only [add_zero] at hin ⊢
      rw [write_vec_self _ _ _ hin]
      norm_num
  · obtain rfl : dy = 0 := by omega
    rcases (by omega : dx = 0 ∨ dx = 1) with rfl | rfl
    · simp only [add_zero] at hin ⊢
      rw [write_vec_ne _ _ _ _ (show ((x : ℤ), y) ≠ (x + 1, y) by
        intro hq; simp only [Prod.mk.injEq] at hq; omega)]
      rw [write_vec_self _ _ _ hin]
      norm_num
    · simp only [add_zero] at hin ⊢
      rw [write_vec_self _ _ _ hin]
      norm_num
  · rcases (by omega : dx = 0 ∨ dx = 1) with rfl | rfl <;>
      rcases (by omega : dy = 0 ∨ dy = 1) with rfl | rfl
    · simp only [add_zero] at hin ⊢
      rw [write_vec_ne _ _ _ _ (show ((x : ℤ), y) ≠ (x + 1, y + 1) by
        intro hq; simp only [Prod.mk.injEq] at hq; omega)]
      rw [write_vec_ne _ _ _ _ (show ((x : ℤ), y) ≠ (x, y + 1) by
        intro hq; simp only [Prod.mk.injEq] at hq; omega)]
      rw [write_vec_ne _ _ _ _ (show ((x : ℤ), y) ≠ (x + 1, y) by
        intro hq; simp only [Prod.mk.injEq] at hq; omega)]
      rw [write_vec_self _ _ _ hin]
      norm_num
    · simp only [add_zero] at hin ⊢
      rw [write_vec_ne _ _ _ _ (show ((x : ℤ), y + 1) ≠ (x + 1, y + 1) by
        intro hq; simp only [Prod.mk.injEq] at hq; omega)]
      rw [write_vec_self _ _ _ hin]
      norm_num
      rfl
    · simp only [add_zero] at hin ⊢
      rw [write_vec_ne _ _ _ _ (show ((x + 1 : ℤ), y) ≠ (x + 1, y + 1) by
        intro hq; simp only [Prod.mk.injEq] at hq; omega)]
      rw [write_vec_ne _ _ _ _ (show ((x + 1 : ℤ), y) ≠ (x, y + 1) by
        intro hq; simp only [Prod.mk.injEq] at hq; omega)]
      rw [write_vec_self _ _ _ hin]
      norm_num
    · rw [write_vec_self _ _ _ hin]
      norm_num
      rfl


theorem kernelWriteStep_anchor (hs vs qt : Bool) (dF dI : DctFn)
    (s : SampleDesc) (out : Img) {p : ℤ × ℤ} (hin : inBounds p s.size) :
    kernelWriteStep hs vs qt dF dI s out (anchorOf hs vs p) p
      = ycbcr_to_rgb (lumaOutVal hs vs qt dF dI s p.1 p.2)
          (cbOutVal hs vs qt dF dI s (anchorOf hs vs p))
          (crOutVal hs vs qt dF dI s (anchorOf hs vs p)) := by
  obtain ⟨p1, p2⟩ := p
  obtain ⟨h1, h2, h3, h4⟩ := hin
  dsimp only at h1 h2 h3 h4 ⊢
  have hf := subFac_pos hs
  have hfy := subFac_pos vs
  have hxid : (anchorOf hs vs (p1, p2)).1 * subFac hs + p1 % subFac hs = p1 := by
    unfold anchorOf
    dsimp only
    rw [mul_comm]
    exact Int.ediv_add_emod p1 (subFac hs)
  have hyid : (anchorOf hs vs (p1, p2)).2 * subFac vs + p2 % subFac vs = p2 := by
    unfold anchorOf
    dsimp only
    rw [mul_comm]
    exact Int.ediv_add_emod p2 (subFac vs)
  have hdx0 : 0 ≤ p1 % subFac hs := Int.emod_nonneg p1 (ne_of_gt hf)
  have hdx1 : p1 % subFac hs < subFac hs := Int.emod_lt_of_pos p1 hf
  have hdy0 : 0 ≤ p2 % subFac vs := Int.emod_nonneg p2 (ne_of_gt hfy)
  have hdy1 : p2 % subFac vs < subFac vs := Int.emod_lt_of_pos p2 hfy
  set a := anchorOf hs vs (p1, p2) with ha
  have hguard : ¬ (s.size.1 ≤ a.1 * subFac hs ∨ s.size.2 ≤ a.2 * subFac vs) := by
    push_neg
    constructor
    · linarith
    · linarith
  simp only [kernelWriteStep, if_neg hguard]
  rw [show ((p1 : ℤ), (p2 : ℤ)) = (a.1 * subFac hs + p1 % subFac hs,
      a.2 * subFac vs + p2 % subFac vs) from by rw [hxid, hyid]]
  rw [sub_write_at hs vs out s.size _ _ _ _ _ hdx0 hdx1 hdy0 hdy1
    (by rw [hxid, hyid]; exact ⟨h1, h2, h3, h4⟩)]
  dsimp only
  have hK : (((p2 % subFac vs * subFac hs + p1 % subFac hs).toNat : ℤ))
      = p2 % subFac vs * subFac hs + p1 % subFac hs :=
    Int.toNat_of_nonneg (add_nonneg (mul_nonneg hdy0 (le_of_lt hf)) hdx0)
  rw [hK, add_comm (p2 % subFac vs * subFac hs) (p1 % subFac hs),
    Int.add_mul_emod_self, Int.emod_emod_of_dvd p1 dvd_rfl,
    add_comm (p1 % subFac hs) (p2 % subFac vs * subFac hs),
    mul_add_ediv hf hdx0 hdx1, hxid, hyid]

/-! ### Folding the tile's position list -/

theorem foldl_step_oob (hs vs qt : Bool) (dF dI : DctFn) (s : SampleDesc)
    (l : List (ℤ × ℤ)) (out : Img) {p : ℤ × ℤ} (h : ¬ inBounds p s.size) :
    l.foldl (kernelWriteStep hs vs qt dF dI s) out p = out p := by
  induction l generalizing out with
  | nil => rfl
  | cons q t ih =>
    simp only [List.foldl_cons]
    rw [ih _, kernelWriteStep_oob _ _ _ _ _ _ _ _ h]

theorem foldl_step_notmem (hs vs qt : Bool) (dF dI : DctFn) (s : SampleDesc)
    (l : List (ℤ × ℤ)) (out : Img) {p : ℤ × ℤ}
    (h : anchorOf hs vs p ∉ l) :
    l.foldl (kernelWriteStep hs vs qt dF dI s) out p = out p := by
  induction l generalizing out with
  | nil => rfl
  | cons q t ih =>
    rw [List.mem_cons] at h
    push_neg at h
    simp only [List.foldl_cons]
    rw [ih _ h.2, kernelWriteStep_other _ _ _ _ _ _ _ _ h.1]

theorem foldl_step_anchor (hs vs qt : Bool) (dF dI : DctFn) (s : SampleDesc)
    (l : List (ℤ × ℤ)) (out : Img) {p : ℤ × ℤ} (hin : inBounds p s.size)
    (hmem : anchorOf hs vs p ∈ l) :
    l.foldl (kernelWriteStep hs vs qt dF dI s) out p
      = ycbcr_to_rgb (lumaOutVal hs vs qt dF dI s p.1 p.2)
          (cbOutVal hs vs qt dF dI s (anchorOf hs vs p))
          (crOutVal hs vs qt dF dI s (anchorOf hs vs p)) := by
  induction l generalizing out with
  | nil => cases hmem
  | cons q t ih =>
    simp only [List.foldl_cons]
    by_cases hmt : anchorOf hs vs p ∈ t
    · exact ih _ hmt
    · have hq : anchorOf hs vs p = q := by
        rcases List.mem_cons.mp hmem with h | h
        · exact h
        · exact absurd h hmt
      subst hq
      rw [foldl_step_notmem _ _ _ _ _ _ _ _ hmt,
        kernelWriteStep_anchor _ _ _ _ _ _ _ hin]

/-- On every in-bounds pixel whose group anchor the tile processes, the
kernel's final output is the reconstruction of the processed planes. -/
theorem kernel_pixel_char (hs vs qt : Bool) (dF dI : DctFn) (s : SampleDesc)
    (blk : BlockDesc) {p : ℤ × ℤ} (hin : inBounds p s.size)
    (hmem : anchorOf hs vs p ∈ posList hs vs blk) :
    JpegCompressionDistortion hs vs qt dF dI s blk p
      = ycbcr_to_rgb (lumaOutVal hs vs qt dF dI s p.1 p.2)
          (cbOutVal hs vs qt dF dI s (anchorOf hs vs p))
          (crOutVal hs vs qt dF dI s (anchorOf hs vs p)) :=
  foldl_step_anchor hs vs qt dF dI s _ _ hin hmem

theorem mem_posList {hs vs : Bool} {blk : BlockDesc} {q : ℤ × ℤ}
    (h1 : alignDown8 blk.start.1 ≤ q.1)
    (h2 : q.1 < alignDown8 blk.start.1 + (tileNX blk : ℤ))
    (h3 : alignDown8 blk.start.2 ≤ q.2)
    (h4 : q.2 < alignDown8 blk.start.2 + (tileNY hs vs blk : ℤ)) :
    q ∈ posList hs vs blk := by
  obtain ⟨q1, q2⟩ := q
  dsimp only at h1 h2 h3 h4
  unfold posList
  apply List.mem_flatMap.mpr
  refine ⟨(q2 - alignDown8 blk.start.2).toNat, ?_, ?_⟩
  · exact List.mem_range.mpr (by omega)
  · have hx : (q1 - alignDown8 blk.start.1).toNat ∈ List.range (tileNX blk) :=
      List.mem_range.mpr (by omega)
    have hmem := List.mem_map_of_mem
      (fun ix : ℕ => ((alignDown8 blk.start.1 + (ix : ℤ),
        alignDown8 blk.start.2 + (((q2 - alignDown8 blk.start.2).toNat : ℕ) : ℤ))
          : ℤ × ℤ)) hx
    have hq : ((q1 : ℤ), (q2 : ℤ))
        = (alignDown8 blk.start.1 + (((q1 - alignDown8 blk.start.1).toNat : ℕ) : ℤ),
           alignDown8 blk.start.2 + (((q2 - alignDown8 blk.start.2).toNat : ℕ) : ℤ)) := by
      rw [Prod.ext_iff]
      constructor <;> dsimp only <;> omega
    rw [hq]
    exact hmem

theorem le_mul_ediv_round_up {x k : ℤ} (hk : 0 < k) :
    x ≤ k * ((x + k - 1) / k) := by
  have h := Int.ediv_add_emod (x + k - 1) k
  have h2 := Int.emod_nonneg (x + k - 1) (ne_of_gt hk)
  have h3 := Int.emod_lt_of_pos (x + k - 1) hk
  linarith

theorem numPages_pos (hs vs : Bool) : 0 < (numPages hs vs : ℤ) := by
  cases hs <;> cases vs <;> norm_num [numPages]

/-- A whole-image block descriptor covers the anchor of every in-bounds
pixel. -/
theorem anchor_mem_posList_full (hs vs : Bool) {p size : ℤ × ℤ}
    (hin : inBounds p size) :
    anchorOf hs vs p ∈ posList hs vs ⟨(0, 0), size⟩ := by
  obtain ⟨h1, h2, h3, h4⟩ := hin
  have hf := subFac_pos hs
  have hfy := subFac_pos vs
  have ha10 : 0 ≤ (anchorOf hs vs p).1 := Int.ediv_nonneg h1 (le_of_lt hf)
  have ha20 : 0 ≤ (anchorOf hs vs p).2 := Int.ediv_nonneg h2 (le_of_lt hfy)
  have ha11 : (anchorOf hs vs p).1 ≤ p.1 := Int.ediv_le_self _ h1
  have ha21 : (anchorOf hs vs p).2 ≤ p.2 := Int.ediv_le_self _ h2
  have hax : alignDown8 ((0 : ℤ × ℤ).1) = 0 := by norm_num [alignDown8]
  have hux : size.1 ≤ alignUp8 size.1 := by unfold alignUp8; omega
  have huy : size.2 ≤ alignUp8 size.2 := by unfold alignUp8; omega
  have hk : 0 < (numPages hs vs : ℤ) * 16 := by
    have := numPages_pos hs vs
    omega
  have hry := le_mul_ediv_round_up
    (x := alignUp8 size.2 - alignDown8 (0 : ℤ) + (numPages hs vs : ℤ) * 16 - 1
      - ((numPages hs vs : ℤ) * 16 - 1)) hk
  apply mem_posList
  · dsimp only
    rw [show alignDown8 (0 : ℤ) = 0 by norm_num [alignDown8]]
    exact ha10
  · dsimp only
    rw [show alignDown8 (0 : ℤ) = 0 by norm_num [alignDown8]]
    unfold tileNX alignUp8
    dsimp only
    rw [show alignDown8 (0 : ℤ) = 0 by norm_num [alignDown8]]
    omega
  · dsimp only
    rw [show alignDown8 (0 : ℤ) = 0 by norm_num [alignDown8]]
    exact ha20
  · dsimp only
    rw [show alignDown8 (0 : ℤ) = 0 by norm_num [alignDown8]]
    unfold tileNY
    dsimp only
    rw [show alignDown8 (0 : ℤ) = 0 by norm_num [alignDown8]]
    have hub := le_mul_ediv_round_up (x := alignUp8 size.2) hk
    have hnn : 0 ≤ (numPages hs vs : ℤ) * 16 *
        ((alignUp8 size.2 - 0 + (numPages hs vs : ℤ) * 16 - 1)
          / ((numPages hs vs : ℤ) * 16)) := by
      have := le_mul_ediv_round_up (x := alignUp8 size.2 - 0) hk
      omega
    rw [Int.toNat_of_nonneg hnn]
    have := le_mul_ediv_round_up (x := alignUp8 size.2 - 0) hk
    omega

/-! ### The DCT stage under the primitive's contract -/

theorem colPass_inv (dF dI : DctFn) (hinv : ∀ v, dI (dF v) = v) (P : Blk) :
    dctColPass dI (dctColPass dF P) = P := by
  funext a b
  exact congrFun (hinv (fun t => P t b)) a

theorem rowPass_inv (dF dI : DctFn) (hinv : ∀ v, dI (dF v) = v) (M : Blk) :
    dctRowPass dI (dctRowPass dF M) = M := by
  funext a b
  exact congrFun (hinv (M a)) b

/-- With quantization disabled, the forward/inverse DCT stages cancel and
the block is returned untouched. -/
theorem processBlock_noquant (dF dI : DctFn) (hinv : ∀ v, dI (dF v) = v)
    (Q : Fin 8 → Fin 8 → ℤ) (M : Blk) :
    processBlock dF dI false Q M = M := by
  unfold processBlock
  simp only [Bool.false_eq_true, if_false]
  rw [colPass_inv dF dI hinv, rowPass_inv dF dI hinv]

theorem blockOf_apply (plane : ℤ → ℤ → ℚ) (X Y : ℤ) :
    blockOf plane (X / 8) (Y / 8) (fin8 Y) (fin8 X) = plane X Y := by
  unfold blockOf fin8
  dsimp only
  have hA : 8 * (X / 8) + ((X % 8).toNat : ℤ) = X := by omega
  have hB : 8 * (Y / 8) + ((Y % 8).toNat : ℤ) = Y := by omega
  rw [hA, hB]

theorem processedPlane_noquant (dF dI : DctFn) (hinv : ∀ v, dI (dF v) = v)
    (Q : Fin 8 → Fin 8 → ℤ) (plane : ℤ → ℤ → ℚ) (X Y : ℤ) :
    processedPlane dF dI false Q plane X Y = plane X Y := by
  unfold processedPlane
  rw [processBlock_noquant dF dI hinv]
  exact blockOf_apply plane X Y

theorem quantize_zero (Q : ℚ) : quantize 0 Q = 0 := by
  unfold quantize
  have h : rnd 0 = 0 := by norm_num [rnd]
  simp [h]

/-- A DCT contract fact used by the flat-block scenario: the stage pipeline
maps the zero block to the zero block (quantization included, since
`quantize 0 Q = 0`). -/
theorem processBlock_zero (dF dI : DctFn) (qt : Bool)
    (hF : dF (fun _ => 0) = fun _ => 0) (hI : dI (fun _ => 0) = fun _ => 0)
    (Q : Fin 8 → Fin 8 → ℤ) :
    processBlock dF dI qt Q (fun _ _ => 0) = fun _ _ => 0 := by
  have hrowF : dctRowPass dF (fun _ _ => (0 : ℚ)) = fun _ _ => 0 := by
    funext a b
    exact congrFun hF b
  have hcolF : dctColPass dF (fun _ _ => (0 : ℚ)) = fun _ _ => 0 := by
    funext a b
    exact congrFun hF a
  have hrowI : dctRowPass dI (fun _ _ => (0 : ℚ)) = fun _ _ => 0 := by
    funext a b
    exact congrFun hI b
  have hcolI : dctColPass dI (fun _ _ => (0 : ℚ)) = fun _ _ => 0 := by
    funext a b
    exact congrFun hI a
  have hq : quantBlock Q (fun _ _ => 0) = fun _ _ => 0 := by
    funext a b
    exact quantize_zero _
  unfold processBlock
  rw [hrowF, hcolF]
  cases qt
  · simp only [Bool.false_eq_true, if_false]
    rw [hcolI, hrowI]
  · simp only [if_true]
    rw [hq, hcolI, hrowI]

theorem processedPlane_zero (dF dI : DctFn) (qt : Bool)
    (hF : dF (fun _ => 0) = fun _ => 0) (hI : dI (fun _ => 0) = fun _ => 0)
    (Q : Fin 8 → Fin 8 → ℤ) {plane : ℤ → ℤ → ℚ} (hp : ∀ X Y, plane X Y = 0)
    (X Y : ℤ) : processedPlane dF dI qt Q plane X Y = 0 := by
  unfold processedPlane
  have hb : blockOf plane (X / 8) (Y / 8) = fun _ _ => 0 := by
    funext a b
    exact hp _ _
  rw [hb, processBlock_zero dF dI qt hF hI Q]

/-! ### Scratch-plane contents -/

theorem sampleNN_inbounds (in_ : Img) {size p : ℤ × ℤ}
    (hin : inBounds p size) : sampleNN in_ size p.1 p.2 = in_ p := by
  obtain ⟨h1, h2, h3, h4⟩ := hin
  unfold sampleNN
  rw [clampI_eq_self h1 (by omega), clampI_eq_self h2 (by omega)]

theorem lumaScratch_ff (in_ : Img) (size : ℤ × ℤ) (X Y : ℤ) :
    lumaScratch false false in_ size X Y
      = ((rgb_to_y (sampleNN in_ size X Y) : ℤ) : ℚ) - 128 := by
  unfold lumaScratch gatherGroup rgb_to_ycbcr_subsampled
  simp only [subFac, Bool.false_eq_true, Bool.and_self, if_false,
    Int.ediv_one, Int.emod_one, mul_one, zero_mul, add_zero, Int.toNat_zero]
  rw [if_true]

theorem cbScratch_ff (in_ : Img) (size : ℤ × ℤ) (X Y : ℤ) :
    cbScratch false false in_ size X Y
      = ((rgb_to_cb (sampleNN in_ size X Y) : ℤ) : ℚ) - 128 := by
  unfold cbScratch gatherGroup rgb_to_ycbcr_subsampled
  simp only [subFac, Bool.false_eq_true, Bool.and_self, if_false, mul_one]

theorem crScratch_ff (in_ : Img) (size : ℤ × ℤ) (X Y : ℤ) :
    crScratch false false in_ size X Y
      = ((rgb_to_cr (sampleNN in_ size X Y) : ℤ) : ℚ) - 128 := by
  unfold crScratch gatherGroup rgb_to_ycbcr_subsampled
  simp only [subFac, Bool.false_eq_true, Bool.and_self, if_false, mul_one]

/-- Claim C4: the kernel never writes outside the declared image
dimensions — for any flags, tile and initial output-buffer content, every
coordinate outside the bounds still holds the initial buffer content after
the kernel runs (out-of-bounds groups are skipped and every pixel store is
bounds-checked). -/
theorem C4_no_out_of_bounds_writes (hs vs qt : Bool) (dF dI : DctFn)
    (s : SampleDesc) (blk : BlockDesc) {p : ℤ × ℤ}
    (h : ¬ inBounds p s.size) :
    JpegCompressionDistortion hs vs qt dF dI s blk p = s.out p :=
  foldl_step_oob hs vs qt dF dI s _ _ h

/-- Claim C4 witness: a 2×3 image processed by an 8-aligned tile leaves the
buffer content at the out-of-bounds coordinate (5, 7) untouched. -/
theorem C4_no_out_of_bounds_writes_witness :
    ¬ inBounds (5, 7) ((2 : ℤ), (3 : ℤ)) ∧
    JpegCompressionDistortion true true true id id
      { in_ := constImg ⟨0, 0, 0⟩, out := constImg ⟨9, 9, 9⟩,
        size := (2, 3), strides := (6, 3) } ⟨(0, 0), (2, 3)⟩ (5, 7)
      = constImg ⟨9, 9, 9⟩ (5, 7) :=
  ⟨by decide, C4_no_out_of_bounds_writes true true true id id
    { in_ := constImg ⟨0, 0, 0⟩, out := constImg ⟨9, 9, 9⟩,
      size := (2, 3), strides := (6, 3) } ⟨(0, 0), (2, 3)⟩ (by decide)⟩

theorem sampleNN_at {in_ : Img} {size : ℤ × ℤ} {x y : ℤ} (h1 : 0 ≤ x)
    (h2 : 0 ≤ y) (h3 : x < size.1) (h4 : y < size.2) :
    sampleNN in_ size x y = in_ (x, y) := by
  unfold sampleNN
  rw [clampI_eq_self h1 (by omega), clampI_eq_self h2 (by omega)]

theorem lumaScratch_inbounds (hs vs : Bool) (in_ : Img) {size p : ℤ × ℤ}
    (hin : inBounds p size) :
    lumaScratch hs vs in_ size p.1 p.2 = ((rgb_to_y (in_ p) : ℤ) : ℚ) - 128 := by
  obtain ⟨p1, p2⟩ := p
  obtain ⟨h1, h2, h3, h4⟩ := hin
  dsimp only at h1 h2 h3 h4 ⊢
  cases hs <;> cases vs
  · rw [lumaScratch_ff, sampleNN_at h1 h2 h3 h4]
  · unfold lumaScratch gatherGroup rgb_to_ycbcr_subsampled
    simp only [subFac, Bool.false_eq_true, Bool.false_and, if_false, if_true,
      Int.ediv_one, Int.emod_one, mul_one]
    rcases (by omega : p2 % 2 = 0 ∨ p2 % 2 = 1) with hr | hr <;> rw [hr]
    · rw [if_pos (show ((0 : ℤ) + 0).toNat = 0 by decide)]
      rw [show p2 / 2 * 2 = p2 from by omega, sampleNN_at h1 h2 h3 h4]
    · rw [if_neg (show ¬ ((1 : ℤ) + 0).toNat = 0 by decide),
        if_pos (show ((1 : ℤ) + 0).toNat = 1 by decide)]
      rw [show p2 / 2 * 2 + 1 = p2 from by omega, sampleNN_at h1 h2 h3 h4]
  · unfold lumaScratch gatherGroup rgb_to_ycbcr_subsampled
    simp only [subFac, Bool.false_eq_true, Bool.true_and, Bool.and_false,
      if_false, if_true, Int.ediv_one, Int.emod_one, mul_one, zero_mul,
      zero_add]
    rcases (by omega : p1 % 2 = 0 ∨ p1 % 2 = 1) with hr | hr <;> rw [hr]
    · rw [if_pos (show ((0 : ℤ)).toNat = 0 by decide)]
      rw [show p1 / 2 * 2 = p1 from by omega, sampleNN_at h1 h2 h3 h4]
    · rw [if_neg (show ¬ ((1 : ℤ)).toNat = 0 by decide),
        if_pos (show ((1 : ℤ)).toNat = 1 by decide)]
      rw [show p1 / 2 * 2 + 1 = p1 from by omega, sampleNN_at h1 h2 h3 h4]
  · unfold lumaScratch gatherGroup rgb_to_ycbcr_subsampled
    simp only [subFac, Bool.false_eq_true, Bool.and_self, if_false, if_true,
      Int.ediv_one, Int.emod_one, mul_one]
    rcases (by omega : p1 % 2 = 0 ∨ p1 % 2 = 1) with hr1 | hr1 <;>
      rcases (by omega : p2 % 2 = 0 ∨ p2 % 2 = 1) with hr2 | hr2 <;>
      rw [hr1, hr2]
    · rw [if_pos (show ((0 : ℤ) * 2 + 0).toNat = 0 by decide)]
      rw [show p1 / 2 * 2 = p1 from by omega,
        show p2 / 2 * 2 = p2 from by omega, sampleNN_at h1 h2 h3 h4]
    · rw [if_neg (show ¬ ((1 : ℤ) * 2 + 0).toNat = 0 by decide),
        if_neg (show ¬ ((1 : ℤ) * 2 + 0).toNat = 1 by decide),
        if_pos (show ((1 : ℤ) * 2 + 0).toNat = 2 by decide)]
      rw [show p1 / 2 * 2 = p1 from by omega,
        show p2 / 2 * 2 + 1 = p2 from by omega, sampleNN_at h1 h2 h3 h4]
    · rw [if_neg (show ¬ ((0 : ℤ) * 2 + 1).toNat = 0 by decide),
        if_pos (show ((0 : ℤ) * 2 + 1).toNat = 1 by decide)]
      rw [show p1 / 2 * 2 + 1 = p1 from by omega,
        show p2 / 2 * 2 = p2 from by omega, sampleNN_at h1 h2 h3 h4]
    · rw [if_neg (show ¬ ((1 : ℤ) * 2 + 1).toNat = 0 by decide),
        if_neg (show ¬ ((1 : ℤ) * 2 + 1).toNat = 1 by decide),
        if_neg (show ¬ ((1 : ℤ) * 2 + 1).toNat = 2 by decide),
        if_pos (show ((1 : ℤ) * 2 + 1).toNat = 3 by decide)]
      rw [show p1 / 2 * 2 + 1 = p1 from by omega,
        show p2 / 2 * 2 + 1 = p2 from by omega, sampleNN_at h1 h2 h3 h4]

/-- The RGB→YCbCr→RGB round trip through 8-bit storage moves every channel
by at most one level: each stored component is within 1/2 of its exact
value, the inverse matrix is (up to ~1e-9 coefficient truncation) the exact
inverse, and the final rounding of a value within 3/2 of an integer can
land at most one level away. -/
theorem color_roundtrip {p : RGB} (hv : validRGB p) :
    |(ycbcr_to_rgb (rgb_to_y p) (rgb_to_cb p) (rgb_to_cr p)).r - p.r| ≤ 1 ∧
    |(ycbcr_to_rgb (rgb_to_y p) (rgb_to_cb p) (rgb_to_cr p)).g - p.g| ≤ 1 ∧
    |(ycbcr_to_rgb (rgb_to_y p) (rgb_to_cb p) (rgb_to_cr p)).b - p.b| ≤ 1 := by
  obtain ⟨r, g, b⟩ := p
  obtain ⟨hr0, hr1, hg0, hg1, hb0, hb1⟩ := hv
  dsimp only at hr0 hr1 hg0 hg1 hb0 hb1
  have hr0q : (0 : ℚ) ≤ (r : ℚ) := by exact_mod_cast hr0
  have hr1q : (r : ℚ) ≤ 255 := by exact_mod_cast hr1
  have hg0q : (0 : ℚ) ≤ (g : ℚ) := by exact_mod_cast hg0
  have hg1q : (g : ℚ) ≤ 255 := by exact_mod_cast hg1
  have hb0q : (0 : ℚ) ≤ (b : ℚ) := by exact_mod_cast hb0
  have hb1q : (b : ℚ) ≤ 255 := by exact_mod_cast hb1
  simp only [ycbcr_to_rgb, rgb_to_y, rgb_to_cb, rgb_to_cr]
  have hY := @abs_ConvertSatU8_sub_le
    (0.299 * (r : ℚ) + 0.587 * (g : ℚ) + 0.114 * (b : ℚ))
    (by linarith) (by linarith)
  have hCb := @abs_ConvertSatU8_sub_le
    (-0.16873589 * (r : ℚ) - 0.33126411 * (g : ℚ) + 0.50000000 * (b : ℚ) + 128.0)
    (by linarith) (by linarith)
  have hCr := @abs_ConvertSatU8_sub_le
    (0.50000000 * (r : ℚ) - 0.41868759 * (g : ℚ) - 0.08131241 * (b : ℚ) + 128.0)
    (by linarith) (by linarith)
  rw [abs_le] at hY hCb hCr
  obtain ⟨hY1, hY2⟩ := hY
  obtain ⟨hCb1, hCb2⟩ := hCb
  obtain ⟨hCr1, hCr2⟩ := hCr
  refine ⟨?_, ?_, ?_⟩
  · exact ConvertSatU8_near_int hr0 hr1 (abs_lt.mpr ⟨by linarith, by linarith⟩)
  · exact ConvertSatU8_near_int hg0 hg1 (abs_lt.mpr ⟨by linarith, by linarith⟩)
  · exact ConvertSatU8_near_int hb0 hb1 (abs_lt.mpr ⟨by linarith, by linarith⟩)

/-- With quantization disabled and an inverse DCT pair, the luma value the
kernel writes back for an in-bounds pixel is exactly that pixel's luma. -/
theorem lumaOutVal_noquant (hs vs : Bool) (dF dI : DctFn)
    (hdct : ∀ v, dI (dF v) = v) (s : SampleDesc) {p : ℤ × ℤ}
    (hin : inBounds p s.size) :
    lumaOutVal hs vs false dF dI s p.1 p.2 = rgb_to_y (s.in_ p) := by
  unfold lumaOutVal
  rw [processedPlane_noquant dF dI hdct, lumaScratch_inbounds hs vs s.in_ hin,
    sub_add_cancel]
  exact ConvertSatU8_intCast (ConvertSatU8_nonneg _) (ConvertSatU8_le_255 _)

theorem cbOutVal_ff_noquant (dF dI : DctFn) (hdct : ∀ v, dI (dF v) = v)
    (s : SampleDesc) {p : ℤ × ℤ} (hin : inBounds p s.size) :
    cbOutVal false false false dF dI s p = rgb_to_cb (s.in_ p) := by
  obtain ⟨h1, h2, h3, h4⟩ := hin
  unfold cbOutVal
  rw [processedPlane_noquant dF dI hdct, cbScratch_ff, sampleNN_at h1 h2 h3 h4,
    sub_add_cancel]
  exact ConvertSatU8_intCast (ConvertSatU8_nonneg _) (ConvertSatU8_le_255 _)

theorem crOutVal_ff_noquant (dF dI : DctFn) (hdct : ∀ v, dI (dF v) = v)
    (s : SampleDesc) {p : ℤ × ℤ} (hin : inBounds p s.size) :
    crOutVal false false false dF dI s p = rgb_to_cr (s.in_ p) := by
  obtain ⟨h1, h2, h3, h4⟩ := hin
  unfold crOutVal
  rw [processedPlane_noquant dF dI hdct, crScratch_ff, sampleNN_at h1 h2 h3 h4,
    sub_add_cancel]
  exact ConvertSatU8_intCast (ConvertSatU8_nonneg _) (ConvertSatU8_le_255 _)

theorem anchorOf_ff (p : ℤ × ℤ) : anchorOf false false p = p := by
  unfold anchorOf subFac
  simp only [Bool.false_eq_true, if_false, Int.ediv_one]

/-- Claim C3: with quantization disabled, no subsampling, and the 1-D DCT
primitive satisfying its inverse contract, the kernel output at every
in-bounds pixel of a valid RGB image is within one level per channel of the
input (the color transforms and the DCT round-trip cancel up to rounding). -/
theorem C3_roundtrip_identity (dF dI : DctFn) (s : SampleDesc)
    (hdct : ∀ v, dI (dF v) = v) (hvalid : validImg s.in_)
    {p : ℤ × ℤ} (hin : inBounds p s.size) :
    |(JpegCompressionDistortion false false false dF dI s
        ⟨(0, 0), s.size⟩ p).r - (s.in_ p).r| ≤ 1 ∧
    |(JpegCompressionDistortion false false false dF dI s
        ⟨(0, 0), s.size⟩ p).g - (s.in_ p).g| ≤ 1 ∧
    |(JpegCompressionDistortion false false false dF dI s
        ⟨(0, 0), s.size⟩ p).b - (s.in_ p).b| ≤ 1 := by
  rw [kernel_pixel_char false false false dF dI s ⟨(0, 0), s.size⟩ hin
    (anchor_mem_posList_full false false hin)]
  rw [anchorOf_ff, lumaOutVal_noquant false false dF dI hdct s hin,
    cbOutVal_ff_noquant dF dI hdct s hin, crOutVal_ff_noquant dF dI hdct s hin]
  exact color_roundtrip (hvalid p)

/-- Claim C3 witness on a 1×1 constant image with the identity DCT pair. -/
theorem C3_roundtrip_identity_witness :
    (∀ v : Fin 8 → ℚ, id (id v) = v) ∧
    validImg (constImg ⟨10, 20, 30⟩) ∧
    inBounds (0, 0) ((1 : ℤ), (1 : ℤ)) ∧
    (|(JpegCompressionDistortion false false false id id
        { in_ := constImg ⟨10, 20, 30⟩, out := constImg ⟨0, 0, 0⟩,
          size := (1, 1), strides := (3, 3) } ⟨(0, 0), (1, 1)⟩ (0, 0)).r
      - (constImg ⟨10, 20, 30⟩ (0, 0)).r| ≤ 1 ∧
     |(JpegCompressionDistortion false false false id id
        { in_ := constImg ⟨10, 20, 30⟩, out := constImg ⟨0, 0, 0⟩,
          size := (1, 1), strides := (3, 3) } ⟨(0, 0), (1, 1)⟩ (0, 0)).g
      - (constImg ⟨10, 20, 30⟩ (0, 0)).g| ≤ 1 ∧
     |(JpegCompressionDistortion false false false id id
        { in_ := constImg ⟨10, 20, 30⟩, out := constImg ⟨0, 0, 0⟩,
          size := (1, 1), strides := (3, 3) } ⟨(0, 0), (1, 1)⟩ (0, 0)).b
      - (constImg ⟨10, 20, 30⟩ (0, 0)).b| ≤ 1) :=
  ⟨fun _ => rfl, fun _ => (by decide : validRGB ⟨10, 20, 30⟩), by decide,
   C3_roundtrip_identity id id
     { in_ := constImg ⟨10, 20, 30⟩, out := constImg ⟨0, 0, 0⟩,
       size := (1, 1), strides := (3, 3) }
     (fun _ => rfl) (fun _ => (by decide : validRGB ⟨10, 20, 30⟩)) (by decide)⟩

/-- Claim C5: with subsampling on at least one axis and quantization
disabled, every in-bounds pixel of one subsampling group is reconstructed
via `ycbcr_to_rgb` from one shared (Cb, Cr) pair — identical for all group
members — while each member keeps its own per-pixel luma. -/
theorem C5_chroma_broadcast (hs vs : Bool) (dF dI : DctFn) (s : SampleDesc)
    (_hsub : hs = true ∨ vs = true) (hdct : ∀ v, dI (dF v) = v)
    {p1 p2 : ℤ × ℤ} (hin1 : inBounds p1 s.size) (hin2 : inBounds p2 s.size)
    (hgrp : anchorOf hs vs p1 = anchorOf hs vs p2) :
    ∃ cbS crS,
      JpegCompressionDistortion hs vs false dF dI s ⟨(0, 0), s.size⟩ p1
        = ycbcr_to_rgb (rgb_to_y (s.in_ p1)) cbS crS ∧
      JpegCompressionDistortion hs vs false dF dI s ⟨(0, 0), s.size⟩ p2
        = ycbcr_to_rgb (rgb_to_y (s.in_ p2)) cbS crS := by
  refine ⟨cbOutVal hs vs false dF dI s (anchorOf hs vs p1),
          crOutVal hs vs false dF dI s (anchorOf hs vs p1), ?_, ?_⟩
  · rw [kernel_pixel_char hs vs false dF dI s ⟨(0, 0), s.size⟩ hin1
      (anchor_mem_posList_full hs vs hin1),
      lumaOutVal_noquant hs vs dF dI hdct s hin1]
  · rw [kernel_pixel_char hs vs false dF dI s ⟨(0, 0), s.size⟩ hin2
      (anchor_mem_posList_full hs vs hin2),
      lumaOutVal_noquant hs vs dF dI hdct s hin2, hgrp]

/-- Claim C5 witness: 4:2:2 horizontal subsampling on a 2×1 image; the two
pixels of the group share one chroma pair. -/
theorem C5_chroma_broadcast_witness :
    (true = true ∨ false = true) ∧
    (∀ v : Fin 8 → ℚ, id (id v) = v) ∧
    inBounds (0, 0) ((2 : ℤ), (1 : ℤ)) ∧ inBounds (1, 0) ((2 : ℤ), (1 : ℤ)) ∧
    anchorOf true false (0, 0) = anchorOf true false (1, 0) ∧
    (∃ cbS crS,
      JpegCompressionDistortion true false false id id
        { in_ := constImg ⟨10, 20, 30⟩, out := constImg ⟨0, 0, 0⟩,
          size := (2, 1), strides := (6, 3) } ⟨(0, 0), (2, 1)⟩ (0, 0)
        = ycbcr_to_rgb (rgb_to_y (constImg ⟨10, 20, 30⟩ (0, 0))) cbS crS ∧
      JpegCompressionDistortion true false false id id
        { in_ := constImg ⟨10, 20, 30⟩, out := constImg ⟨0, 0, 0⟩,
          size := (2, 1), strides := (6, 3) } ⟨(0, 0), (2, 1)⟩ (1, 0)
        = ycbcr_to_rgb (rgb_to_y (constImg ⟨10, 20, 30⟩ (1, 0))) cbS crS) :=
  ⟨Or.inl rfl, fun _ => rfl, by decide, by decide, by decide,
   C5_chroma_broadcast true false id id
     { in_ := constImg ⟨10, 20, 30⟩, out := constImg ⟨0, 0, 0⟩,
       size := (2, 1), strides := (6, 3) }
     (Or.inl rfl) (fun _ => rfl) (by decide) (by decide) (by decide)⟩

theorem rgb_to_y_128 : rgb_to_y ⟨128, 128, 128⟩ = 128 := by
  norm_num [rgb_to_y, ConvertSatU8, rnd]

theorem rgb_to_cb_128 : rgb_to_cb ⟨128, 128, 128⟩ = 128 := by
  norm_num [rgb_to_cb, ConvertSatU8, rnd]

theorem rgb_to_cr_128 : rgb_to_cr ⟨128, 128, 128⟩ = 128 := by
  norm_num [rgb_to_cr, ConvertSatU8, rnd]

theorem ycbcr_to_rgb_128 : ycbcr_to_rgb 128 128 128 = ⟨128, 128, 128⟩ := by
  norm_num [ycbcr_to_rgb, ConvertSatU8, rnd]

/-- Claim C9: a flat mid-gray 16×16 image, quality-95 tables, quantization
enabled and no subsampling comes back unchanged (within one level): the
centered scratch planes are identically zero, the DCT stages and
quantization keep them zero, so every pixel reconstructs to 128. -/
theorem C9_flat_gray (dF dI : DctFn) (out0 : Img) (st : ℤ × ℤ)
    (hF : dF (fun _ => 0) = fun _ => 0) (hI : dI (fun _ => 0) = fun _ => 0)
    {p : ℤ × ℤ} (hin : inBounds p ((16 : ℤ), (16 : ℤ))) :
    |(JpegCompressionDistortion false false true dF dI
        { in_ := constImg ⟨128, 128, 128⟩, out := out0, size := (16, 16),
          strides := st, luma_Q_table := GetLumaQuantizationTable 95,
          chroma_Q_table := GetChromaQuantizationTable 95 }
        ⟨(0, 0), (16, 16)⟩ p).r - (constImg ⟨128, 128, 128⟩ p).r| ≤ 1 ∧
    |(JpegCompressionDistortion false false true dF dI
        { in_ := constImg ⟨128, 128, 128⟩, out := out0, size := (16, 16),
          strides := st, luma_Q_table := GetLumaQuantizationTable 95,
          chroma_Q_table := GetChromaQuantizationTable 95 }
        ⟨(0, 0), (16, 16)⟩ p).g - (constImg ⟨128, 128, 128⟩ p).g| ≤ 1 ∧
    |(JpegCompressionDistortion false false true dF dI
        { in_ := constImg ⟨128, 128, 128⟩, out := out0, size := (16, 16),
          strides := st, luma_Q_table := GetLumaQuantizationTable 95,
          chroma_Q_table := GetChromaQuantizationTable 95 }
        ⟨(0, 0), (16, 16)⟩ p).b - (constImg ⟨128, 128, 128⟩ p).b| ≤ 1 := by
  have hluma : ∀ X Y : ℤ,
      lumaScratch false false (constImg ⟨128, 128, 128⟩) (16, 16) X Y = 0 := by
    intro X Y
    rw [lumaScratch_ff]
    show ((rgb_to_y (constImg ⟨128, 128, 128⟩ _) : ℤ) : ℚ) - 128 = 0
    rw [show constImg (⟨128, 128, 128⟩ : RGB)
        (clampI X 0 ((16 : ℤ) - 1), clampI Y 0 ((16 : ℤ) - 1))
        = ⟨128, 128, 128⟩ from rfl]
    rw [rgb_to_y_128]
    norm_num
  have hcb : ∀ X Y : ℤ,
      cbScratch false false (constImg ⟨128, 128, 128⟩) (16, 16) X Y = 0 := by
    intro X Y
    rw [cbScratch_ff]
    show ((rgb_to_cb (constImg ⟨128, 128, 128⟩ _) : ℤ) : ℚ) - 128 = 0
    rw [show constImg (⟨128, 128, 128⟩ : RGB)
        (clampI X 0 ((16 : ℤ) - 1), clampI Y 0 ((16 : ℤ) - 1))
        = ⟨128, 128, 128⟩ from rfl]
    rw [rgb_to_cb_128]
    norm_num
  have hcr : ∀ X Y : ℤ,
      crScratch false false (constImg ⟨128, 128, 128⟩) (16, 16) X Y = 0 := by
    intro X Y
    rw [crScratch_ff]
    show ((rgb_to_cr (constImg ⟨128, 128, 128⟩ _) : ℤ) : ℚ) - 128 = 0
    rw [show constImg (⟨128, 128, 128⟩ : RGB)
        (clampI X 0 ((16 : ℤ) - 1), clampI Y 0 ((16 : ℤ) - 1))
        = ⟨128, 128, 128⟩ from rfl]
    rw [rgb_to_cr_128]
    norm_num
  rw [kernel_pixel_char false false true dF dI _ ⟨(0, 0), (16, 16)⟩ hin
    (anchor_mem_posList_full false false hin)]
  rw [anchorOf_ff]
  unfold lumaOutVal cbOutVal crOutVal
  dsimp only
  rw [processedPlane_zero dF dI true hF hI _ hluma,
    processedPlane_zero dF dI true hF hI _ hcb,
    processedPlane_zero dF dI true hF hI _ hcr]
  norm_num [ConvertSatU8, rnd, ycbcr_to_rgb_128, constImg]


/-- Claim C9 witness at pixel (0, 0) with the identity DCT pair. -/
theorem C9_flat_gray_witness :
    ((id : DctFn) (fun _ => 0) = fun _ => 0) ∧
    inBounds (0, 0) ((16 : ℤ), (16 : ℤ)) ∧
    (|(JpegCompressionDistortion false false true id id
        { in_ := constImg ⟨128, 128, 128⟩, out := constImg ⟨0, 0, 0⟩,
          size := (16, 16), strides := (48, 3),
          luma_Q_table := GetLumaQuantizationTable 95,
          chroma_Q_table := GetChromaQuantizationTable 95 }
        ⟨(0, 0), (16, 16)⟩ (0, 0)).r - (constImg ⟨128, 128, 128⟩ (0, 0)).r| ≤ 1 ∧
     |(JpegCompressionDistortion false false true id id
        { in_ := constImg ⟨128, 128, 128⟩, out := constImg ⟨0, 0, 0⟩,
          size := (16, 16), strides := (48, 3),
          luma_Q_table := GetLumaQuantizationTable 95,
          chroma_Q_table := GetChromaQuantizationTable 95 }
        ⟨(0, 0), (16, 16)⟩ (0, 0)).g - (constImg ⟨128, 128, 128⟩ (0, 0)).g| ≤ 1 ∧
     |(JpegCompressionDistortion false false true id id
        { in_ := constImg ⟨128, 128, 128⟩, out := constImg ⟨0, 0, 0⟩,
          size := (16, 16), strides := (48, 3),
          luma_Q_table := GetLumaQuantizationTable 95,
          chroma_Q_table := GetChromaQuantizationTable 95 }
        ⟨(0, 0), (16, 16)⟩ (0, 0)).b - (constImg ⟨128, 128, 128⟩ (0, 0)).b| ≤ 1) :=
  ⟨rfl, by decide, C9_flat_gray id id (constImg ⟨0, 0, 0⟩) (48, 3) rfl rfl
    (by decide)⟩

theorem meanRGB_singleton {a : RGB} (hv : validRGB a) : meanRGB [a] = a := by
  obtain ⟨r, g, b⟩ := a
  obtain ⟨h1, h2, h3, h4, h5, h6⟩ := hv
  dsimp only at h1 h2 h3 h4 h5 h6
  unfold meanRGB
  simp only [List.map_cons, List.map_nil, List.sum_cons, List.sum_nil,
    List.length_cons, List.length_nil, add_zero, zero_add, Nat.cast_one,
    div_one]
  rw [ConvertSatU8_intCast h1 h2, ConvertSatU8_intCast h3 h4,
    ConvertSatU8_intCast h5 h6]

theorem meanRGB_pair (a b : RGB) : meanRGB [a, b] = avg2 a b := by
  unfold meanRGB avg2
  simp only [List.map_cons, List.map_nil, List.sum_cons, List.sum_nil,
    add_zero, List.length_cons, List.length_nil]
  norm_num
  refine ⟨?_, ?_, ?_⟩ <;>
  · congr 1
    ring

theorem meanRGB_quad (a b c d : RGB) : meanRGB [a, b, c, d] = avg4 a b c d := by
  unfold meanRGB avg4
  simp only [List.map_cons, List.map_nil, List.sum_cons, List.sum_nil,
    add_zero, List.length_cons, List.length_nil]
  norm_num
  refine ⟨?_, ?_, ?_⟩ <;>
  · congr 1
    ring

theorem getD_zero {α : Type} (a : α) (l : List α) (d : α) :
    (a :: l).getD 0 d = a := rfl

theorem getD_one {α : Type} (a b : α) (l : List α) (d : α) :
    (a :: b :: l).getD 1 d = b := rfl

theorem getD_two {α : Type} (a b c : α) (l : List α) (d : α) :
    (a :: b :: c :: l).getD 2 d = c := rfl

theorem getD_three {α : Type} (a b c e : α) (l : List α) (d : α) :
    (a :: b :: c :: e :: l).getD 3 d = e := rfl

/-- Claim C6: `rgb_to_ycbcr_subsampled` samples exactly 1, 2 or 4 pixels
according to the flags with the border-clamping sampler; each sampled pixel
contributes its own luma via `rgb_to_y`, and the single shared (Cb, Cr)
pair comes from the rounded/saturated arithmetic mean of the sampled
pixels. -/
theorem C6_subsampled_gather (hs vs : Bool) (in_ : Img) (size : ℤ × ℤ)
    (x y : ℤ) (hv : validImg in_) :
    (sampledCoordsSpec hs vs x y).length
        = (if hs then 2 else 1) * (if vs then 2 else 1) ∧
    (∀ k, k < (sampledCoordsSpec hs vs x y).length →
      (rgb_to_ycbcr_subsampled hs vs in_ size x y).luma k
        = rgb_to_y ((sampledPixels hs vs in_ size x y).getD k ⟨0, 0, 0⟩)) ∧
    (rgb_to_ycbcr_subsampled hs vs in_ size x y).cb
        = rgb_to_cb (meanRGB (sampledPixels hs vs in_ size x y)) ∧
    (rgb_to_ycbcr_subsampled hs vs in_ size x y).cr
        = rgb_to_cr (meanRGB (sampledPixels hs vs in_ size x y)) := by
  cases hs <;> cases vs <;>
    simp only [sampledCoordsSpec, sampledPixels, rgb_to_ycbcr_subsampled,
      Bool.and_self, Bool.and_false, Bool.and_true, Bool.true_and,
      Bool.false_and, Bool.false_eq_true, if_true, if_false,
      List.map_cons, List.map_nil]
  · refine ⟨rfl, ?_, ?_, ?_⟩
    · intro k hk
      have hk0 : k = 0 := by
        simp only [List.length_cons, List.length_nil] at hk
        omega
      subst hk0
      rw [getD_zero, if_pos rfl]
    · have hvs : validRGB (sampleNN in_ size x y) := hv _
      rw [meanRGB_singleton hvs]
    · have hvs : validRGB (sampleNN in_ size x y) := hv _
      rw [meanRGB_singleton hvs]
  · refine ⟨rfl, ?_, ?_, ?_⟩
    · intro k hk
      have hk01 : k = 0 ∨ k = 1 := by
        simp only [List.length_cons, List.length_nil] at hk
        omega
      rcases hk01 with rfl | rfl
      · rw [getD_zero, if_pos rfl]
      · rw [getD_one, if_neg (show ¬ (1 : ℕ) = 0 from by decide), if_pos rfl]
    · rw [meanRGB_pair]
    · rw [meanRGB_pair]
  · refine ⟨rfl, ?_, ?_, ?_⟩
    · intro k hk
      have hk01 : k = 0 ∨ k = 1 := by
        simp only [List.length_cons, List.length_nil] at hk
        omega
      rcases hk01 with rfl | rfl
      · rw [getD_zero, if_pos rfl]
      · rw [getD_one, if_neg (show ¬ (1 : ℕ) = 0 from by decide), if_pos rfl]
    · rw [meanRGB_pair]
    · rw [meanRGB_pair]
  · refine ⟨rfl, ?_, ?_, ?_⟩
    · intro k hk
      have hk03 : k = 0 ∨ k = 1 ∨ k = 2 ∨ k = 3 := by
        simp only [List.length_cons, List.length_nil] at hk
        omega
      rcases hk03 with rfl | rfl | rfl | rfl
      · rw [getD_zero, if_pos rfl]
      · rw [getD_one, if_neg (show ¬ (1 : ℕ) = 0 from by decide), if_pos rfl]
      · rw [getD_two, if_neg (show ¬ (2 : ℕ) = 0 from by decide),
          if_neg (show ¬ (2 : ℕ) = 1 from by decide), if_pos rfl]
      · rw [getD_three, if_neg (show ¬ (3 : ℕ) = 0 from by decide),
          if_neg (show ¬ (3 : ℕ) = 1 from by decide),
          if_neg (show ¬ (3 : ℕ) = 2 from by decide), if_pos rfl]
    · rw [meanRGB_quad]
    · rw [meanRGB_quad]

/-- Claim C6 witness with both subsampling flags on. -/
theorem C6_subsampled_gather_witness :
    validImg (constImg ⟨10, 20, 30⟩) ∧
    ((sampledCoordsSpec true true 0 0).length
        = (if true then 2 else 1) * (if true then 2 else 1) ∧
     (∀ k, k < (sampledCoordsSpec true true 0 0).length →
       (rgb_to_ycbcr_subsampled true true (constImg ⟨10, 20, 30⟩) (4, 4) 0 0).luma k
         = rgb_to_y ((sampledPixels true true (constImg ⟨10, 20, 30⟩) (4, 4) 0 0).getD
             k ⟨0, 0, 0⟩)) ∧
     (rgb_to_ycbcr_subsampled true true (constImg ⟨10, 20, 30⟩) (4, 4) 0 0).cb
         = rgb_to_cb (meanRGB (sampledPixels true true (constImg ⟨10, 20, 30⟩) (4, 4) 0 0)) ∧
     (rgb_to_ycbcr_subsampled true true (constImg ⟨10, 20, 30⟩) (4, 4) 0 0).cr
         = rgb_to_cr (meanRGB (sampledPixels true true (constImg ⟨10, 20, 30⟩) (4, 4) 0 0))) :=
  ⟨fun _ => (by decide : validRGB ⟨10, 20, 30⟩),
   C6_subsampled_gather true true (constImg ⟨10, 20, 30⟩) (4, 4) 0 0
     (fun _ => (by decide : validRGB ⟨10, 20, 30⟩))⟩

/-- Claim C10: a `SampleDesc` built without specifying the tables carries
the quality-95 luma and chroma quantization tables as defaults. -/
theorem C10_default_tables :
    ∀ (i o : Img) (sz st : ℤ × ℤ),
      ({ in_ := i, out := o, size := sz, strides := st } : SampleDesc).luma_Q_table
        = GetLumaQuantizationTable 95 ∧
      ({ in_ := i, out := o, size := sz, strides := st } : SampleDesc).chroma_Q_table
        = GetChromaQuantizationTable 95 :=
  fun _ _ _ _ => ⟨rfl, rfl⟩

end JpegDistortion
